import Mathlib

/-!
A shallow embedding of the repository under verification: the LRU cache
from src/include/caching/lru_cache.hpp (class caching::lru_cache) and the
block pool allocator from the pool allocator header (class
caching::pool_allocator), together with proofs of the specified
properties.

Modelling conventions.
The recency list std::list is modelled by a Lean list of (key, value)
pairs, front = least recently used, back = most recently used; the node
field "const TKey *first" is modelled by the key it resolves to.  The
unordered_map dict is modelled by the list of its keys (its stored
iterators always point at the unique recency node holding the same key,
which the embedding locates by key).  Machine pointers returned by the
allocator are modelled as stable slot handles (block id, slot index) for
the single-object pool path and fresh ids for the bulk fallback path.
-/

variable {K V : Type} [DecidableEq K]

/-- Lookup of the first entry with the given key in an association list;
models searching a container by key equality. -/
def findValue : List (K × V) → K → Option V
  | [], _ => none
  | e :: es, k => if e.1 = k then some e.2 else findValue es k

/-- Removal of the first entry with the given key.  Followed by appending
that entry at the back, this models cache.splice(cache.end(), cache, it),
which unlinks the node the dict iterator designates and relinks it at the
back (lru_cache.hpp lines 84, 126, 152, 168). -/
def removeKey : List (K × V) → K → List (K × V)
  | [], _ => []
  | e :: es, k => if e.1 = k then es else e :: removeKey es k

/-- Removal of the first occurrence of a key from a plain key list; models
dict.extract(key) on the key set of the unordered_map (lru_cache.hpp line
113). -/
def eraseKey : List K → K → List K
  | [], _ => []
  | a :: rest, k => if a = k then rest else a :: eraseKey rest k

/-- The state of caching::lru_cache (lru_cache.hpp lines 21-39): the key
set of the unordered_map dict, the recency list cache (front = least
recently used), and the fixed limit. -/
structure lru_cache (K V : Type) where
  dict : List K
  cache : List (K × V)
  limit : Nat
deriving DecidableEq

/-- The construction-time assert condition of both constructors
(lru_cache.hpp lines 48 and 58): assert(limit && ...). -/
def lru_cache.ctorAssert (limit : Nat) : Bool :=
  decide (limit ≠ 0)

/-- A new, empty lru_cache (both constructors, lru_cache.hpp lines 44-60,
start with an empty dict and an empty recency list). -/
def lru_cache.init (limit : Nat) : lru_cache K V :=
  ⟨[], [], limit⟩

/-- The keys currently held by the recency list, in recency order. -/
def lru_cache.keys (s : lru_cache K V) : List K :=
  s.cache.map Prod.fst

/-- lru_cache::insert (lru_cache.hpp lines 77-129).  The returned pair
models (pointer to the cached value, whether the insertion took place);
the pointee is modelled by the value it holds right after the call.  The
inner none case models the state the code excludes by its assertions
(a dict entry whose node is missing) and is unreachable from any
well-formed state. -/
def lru_cache.insert (s : lru_cache K V) (k : K) (v : V) (update : Bool) :
    (Option V × Bool) × lru_cache K V :=
  if k ∈ s.dict then
    -- lines 81-92: splice the node to the back; overwrite iff update
    match findValue s.cache k with
    | some oldV =>
        let newV := if update then v else oldV
        ((some newV, false), { s with cache := removeKey s.cache k ++ [(k, newV)] })
    | none => ((none, false), s)
  else if s.dict.length ≠ s.limit then
    -- lines 97-104: append a fresh node at the back, add an index record
    ((some v, true), { s with dict := k :: s.dict, cache := s.cache ++ [(k, v)] })
  else
    -- lines 109-128: extract the front key from dict, overwrite the front
    -- node with the new entry in place, splice it to the back
    match s.cache with
    | [] => ((none, true), s)
    | front :: rest =>
        ((some v, true),
          { s with dict := k :: eraseKey s.dict front.1, cache := rest ++ [(k, v)] })

/-- lru_cache::getOrInsert (lru_cache.hpp lines 136-140): insert with
update = false, returning the cached value unconditionally. -/
def lru_cache.getOrInsert (s : lru_cache K V) (k : K) (v : V) :
    Option V × lru_cache K V :=
  let r := s.insert k v false
  (r.1.1, r.2)

/-- lru_cache::get (both overloads, lru_cache.hpp lines 148-173): on a hit
the node is spliced to the back of the recency list and the value
returned; on a miss nullopt is returned and nothing changes. -/
def lru_cache.get (s : lru_cache K V) (k : K) : Option V × lru_cache K V :=
  if k ∈ s.dict then
    match findValue s.cache k with
    | some v => (some v, { s with cache := removeKey s.cache k ++ [(k, v)] })
    | none => (none, s)
  else (none, s)

/-- lru_cache::peek (both overloads, lru_cache.hpp lines 175-192): like
get but without the splice; the state component records that the call
leaves the cache as it was. -/
def lru_cache.peek (s : lru_cache K V) (k : K) : Option V × lru_cache K V :=
  if k ∈ s.dict then
    match findValue s.cache k with
    | some v => (some v, s)
    | none => (none, s)
  else (none, s)

/-- lru_cache::forEach (both overloads, lru_cache.hpp lines 199-218):
iterates the recency list front to back, calling fn(key, value) on each
node.  The first component is the list of (key, value) arguments passed to
fn in call order; the second the state after the loop. -/
def lru_cache.forEach (s : lru_cache K V) : List (K × V) × lru_cache K V :=
  (s.cache, s)

/-- One public cache operation, for reasoning about operation sequences. -/
inductive LOp (K V : Type) where
  | ins (k : K) (v : V) (update : Bool)
  | getOrIns (k : K) (v : V)
  | get (k : K)
  | peek (k : K)
  | each
deriving DecidableEq

/-- The state transition of one public operation. -/
def lru_cache.step (s : lru_cache K V) : LOp K V → lru_cache K V
  | .ins k v u => (s.insert k v u).2
  | .getOrIns k v => (s.getOrInsert k v).2
  | .get k => (s.get k).2
  | .peek k => (s.peek k).2
  | .each => s.forEach.2

/-- Running a sequence of public operations. -/
def lru_cache.run (s : lru_cache K V) (t : List (LOp K V)) : lru_cache K V :=
  t.foldl lru_cache.step s

/-- The keys passed to the inserting operations of a sequence, in order. -/
def LOp.insKey : LOp K V → Option K
  | .ins k _ _ => some k
  | .getOrIns k _ => some k
  | _ => none

/-- All keys passed to insert or getOrInsert along a sequence. -/
def insKeys (t : List (LOp K V)) : List K :=
  t.filterMap LOp.insKey

/-- Structural well-formedness of a cache state, as the code maintains it:
dict holds each key once, the recency list holds each key once, dict and
the recency list hold the same keys, and the recency list never exceeds
the limit. -/
def lru_cache.Inv (s : lru_cache K V) : Prop :=
  s.dict.Nodup ∧ s.keys.Nodup ∧ (∀ k ∈ s.dict, k ∈ s.keys) ∧
    (∀ k ∈ s.keys, k ∈ s.dict) ∧ s.cache.length ≤ s.limit

/-- Well-formedness is decidable, so concrete states can be checked. -/
instance (s : lru_cache K V) : Decidable s.Inv := by
  unfold lru_cache.Inv
  exact inferInstance

/-- An instrumented state for recency reasoning: the cache state, the last
successful-access step of each currently cached key (its stamp), and a
step counter. -/
structure SState (K V : Type) where
  st : lru_cache K V
  stamps : List (K × Nat)
  clock : Nat

/-- The stamp recorded for a key (0 if none is recorded). -/
def stampOf (stamps : List (K × Nat)) (k : K) : Nat :=
  (findValue stamps k).getD 0

/-- Recording a new stamp for a key. -/
def setStamp (stamps : List (K × Nat)) (k : K) (c : Nat) : List (K × Nat) :=
  (k, c) :: removeKey stamps k

/-- How the stamps evolve under one operation: a successful get and every
insert or getOrInsert touch their key; an eviction drops the stamp of the
evicted front key; peek and forEach touch nothing. -/
def stampsStep (s : lru_cache K V) (stamps : List (K × Nat)) (c : Nat) :
    LOp K V → List (K × Nat)
  | .get k => if k ∈ s.dict then setStamp stamps k c else stamps
  | .peek _ => stamps
  | .each => stamps
  | .ins k _ _ =>
      if k ∈ s.dict then setStamp stamps k c
      else if s.dict.length ≠ s.limit then setStamp stamps k c
      else
        match s.cache with
        | [] => stamps
        | front :: _ => setStamp (removeKey stamps front.1) k c
  | .getOrIns k _ =>
      if k ∈ s.dict then setStamp stamps k c
      else if s.dict.length ≠ s.limit then setStamp stamps k c
      else
        match s.cache with
        | [] => stamps
        | front :: _ => setStamp (removeKey stamps front.1) k c

/-- One instrumented step. -/
def sstep (σ : SState K V) (op : LOp K V) : SState K V :=
  ⟨σ.st.step op, stampsStep σ.st σ.stamps σ.clock op, σ.clock + 1⟩

/-- Running an instrumented sequence. -/
def srun (σ : SState K V) (t : List (LOp K V)) : SState K V :=
  t.foldl sstep σ

/-- The instrumented initial state of a fresh cache. -/
def sinit (limit : Nat) : SState K V :=
  ⟨lru_cache.init limit, [], 0⟩

/-- A pointer handed out by caching::pool_allocator: a (block id, slot
index) handle for the single-object pool path, or a fresh id for the bulk
new[] fallback path taken when the requested count is not 1. -/
inductive APtr where
  | slot (blockId : Nat) (idx : Nat)
  | heap (id : Nat)
deriving DecidableEq

/-- The state of caching::pool_allocator.  useFreeList and blockSize model
the template parameters UseFreeList and BlockSize; pool is the intrusive
block chain, newest block first, each block recorded as (id, slot count);
freeList models the overlaid free list as the stack of freed slot handles
(always empty when UseFreeList is false, whose MemoryPool has no freeList
member); currBlockSize and index are the fields of the same names.
nextBlockId and nextHeapId are bookkeeping counters giving fresh
identities to blocks and bulk allocations. -/
structure pool_allocator where
  useFreeList : Bool
  blockSize : Nat
  pool : List (Nat × Nat)
  freeList : List (Nat × Nat)
  currBlockSize : Nat
  index : Nat
  nextBlockId : Nat
  nextHeapId : Nat
deriving DecidableEq

/-- The pool_allocator constructor (pool allocator header, lines 61-65):
empty pool, index = currBlockSize = reserved; the default argument for
reserved is BlockSize. -/
def pool_allocator.init (ufl : Bool) (blockSize reserved : Nat) : pool_allocator :=
  ⟨ufl, blockSize, [], [], reserved, reserved, 0, 0⟩

/-- The id of the newest block of the chain (the code only reads it when
the chain is nonempty; 0 is a dummy for the empty chain). -/
def headId (pool : List (Nat × Nat)) : Nat :=
  match pool with
  | [] => 0
  | b :: _ => b.1

/-- The slow path of pool_allocator::allocate for count 1 (lines 128-147):
if the current block is exhausted, create a new block - sized BlockSize
when a block exists already (also updating currBlockSize), and sized
currBlockSize (= the reserved constructor argument) for the very first
block - link it ahead of the chain, set index to 1 and hand out its slot
0; otherwise hand out the slot at index and advance index. -/
def pool_allocator.allocFromBlocks (s : pool_allocator) : APtr × pool_allocator :=
  if s.index = s.currBlockSize then
    match s.pool with
    | [] =>
        (APtr.slot s.nextBlockId 0,
          { s with pool := [(s.nextBlockId, s.currBlockSize)], index := 1,
                   nextBlockId := s.nextBlockId + 1 })
    | b :: bs =>
        (APtr.slot s.nextBlockId 0,
          { s with pool := (s.nextBlockId, s.blockSize) :: b :: bs,
                   currBlockSize := s.blockSize, index := 1,
                   nextBlockId := s.nextBlockId + 1 })
  else
    (APtr.slot (headId s.pool) s.index, { s with index := s.index + 1 })

/-- pool_allocator::allocate (lines 113-148): a count other than 1 falls
back to a plain new[] (modelled as a fresh heap id); for count 1, pop the
free list when it is in use and nonempty, otherwise allocate from the
block chain. -/
def pool_allocator.allocate (s : pool_allocator) (n : Nat) : APtr × pool_allocator :=
  if n ≠ 1 then
    (APtr.heap s.nextHeapId, { s with nextHeapId := s.nextHeapId + 1 })
  else
    match s.useFreeList, s.freeList with
    | true, f :: rest => (APtr.slot f.1 f.2, { s with freeList := rest })
    | _, _ => s.allocFromBlocks

/-- pool_allocator::deallocate (lines 150-163): a count other than 1 is a
plain delete[] of the bulk allocation, which never touches the pool; for
count 1, push the slot onto the free list when UseFreeList is true, and do
nothing at all when it is false. -/
def pool_allocator.deallocate (s : pool_allocator) (p : APtr) (n : Nat) :
    pool_allocator :=
  if n ≠ 1 then s
  else if s.useFreeList then
    match p with
    | APtr.slot b i => { s with freeList := (b, i) :: s.freeList }
    | APtr.heap _ => s
  else s

/-- The pool_allocator destructor (lines 86-98): walk the block chain and
release every linked block. -/
def pool_allocator.destroy (s : pool_allocator) : pool_allocator :=
  { s with pool := [] }

/-- One allocator call, for reasoning about call sequences. -/
inductive AOp where
  | alloc (n : Nat)
  | dealloc (p : APtr) (n : Nat)
deriving DecidableEq

/-- One allocator call on (allocator state, log of pointers returned by
allocate so far). -/
def astep : pool_allocator × List APtr → AOp → pool_allocator × List APtr
  | (s, log), .alloc n =>
      let r := s.allocate n
      (r.2, log ++ [r.1])
  | (s, log), .dealloc p n => (s.deallocate p n, log)

/-- Running a sequence of allocator calls. -/
def arun (x : pool_allocator × List APtr) (t : List AOp) :
    pool_allocator × List APtr :=
  t.foldl astep x

/-- Whether a pointer lies strictly inside the slot array of the block it
belongs to (bulk pointers are not slot pointers and are in bounds by
convention). -/
def inBoundsB (pool : List (Nat × Nat)) : APtr → Bool
  | APtr.slot b i =>
      match findValue pool b with
      | some sz => decide (i < sz)
      | none => false
  | APtr.heap _ => true

/-- Well-formedness of an allocator state, as the code maintains it from
any constructor call with reserved at least 1: block sizes are positive,
an empty chain means the cursor sits at the end marker, the newest block
is sized currBlockSize with the cursor inside it, block ids are distinct
and below the id counter, and every free-list entry is an in-bounds slot. -/
def pool_allocator.Inv (s : pool_allocator) : Prop :=
  1 ≤ s.blockSize ∧ 1 ≤ s.currBlockSize ∧
    (s.pool = [] → s.index = s.currBlockSize) ∧
    (∀ b bs, s.pool = b :: bs → b.2 = s.currBlockSize ∧ s.index ≤ s.currBlockSize) ∧
    (s.pool.map Prod.fst).Nodup ∧
    (∀ p ∈ s.pool, p.1 < s.nextBlockId) ∧
    (∀ q ∈ s.freeList, inBoundsB s.pool (APtr.slot q.1 q.2) = true)

/-- The UseFreeList template argument the cache passes for its recency
list allocator: pool_allocator with ListElemTy, false, AllocBlockSize
(lru_cache.hpp line 27). -/
def lru_cache.ListAllocUseFreeList : Bool := false

/-- The UseFreeList template argument the cache passes for its
unordered_map allocator: pool_allocator with MapPairTy, false,
AllocBlockSize (lru_cache.hpp line 31). -/
def lru_cache.MapAllocUseFreeList : Bool := false

/-- Well-formedness of an instrumented state: the cache state is
well-formed, each key carries at most one stamp, every cached key carries
a stamp, all stamps are in the past, and the recency list is strictly
ordered by stamp from oldest to newest. -/
def SInv (σ : SState K V) : Prop :=
  σ.st.Inv ∧ (σ.stamps.map Prod.fst).Nodup ∧
    (∀ k ∈ σ.st.keys, k ∈ σ.stamps.map Prod.fst) ∧
    (∀ p ∈ σ.stamps, p.2 < σ.clock) ∧
    σ.st.keys.Pairwise (fun a b => stampOf σ.stamps a < stampOf σ.stamps b)

/-- Freshness invariant of an allocator without a free list, relating the
allocator state to the log of pointers allocate has returned: no pointer
is ever handed out twice because returned slots sit strictly behind the
cursor of the newest block or in an older block, and returned bulk
pointers have already-consumed ids. -/
def FreshInv (s : pool_allocator) (log : List APtr) : Prop :=
  s.useFreeList = false ∧ log.Nodup ∧
    (s.pool = [] → s.index = s.currBlockSize) ∧
    (∀ p ∈ s.pool, p.1 < s.nextBlockId) ∧
    (∀ q ∈ log,
      match q with
      | APtr.slot b i => s.pool ≠ [] ∧ b < s.nextBlockId ∧ (b = headId s.pool → i < s.index)
      | APtr.heap h2 => h2 < s.nextHeapId)

/-! ## Lemmas about the list helpers -/

theorem findValue_eq_none {c : List (K × V)} {k : K} :
    findValue c k = none ↔ k ∉ c.map Prod.fst := by
  induction c with
  | nil => simp [findValue]
  | cons e es ih =>
      by_cases h : e.1 = k
      · simp [findValue, h]
      · have h2 : ¬ k = e.1 := fun hk => h hk.symm
        simp [findValue, h, ih, h2]

theorem findValue_isSome_of_mem {c : List (K × V)} {k : K}
    (h : k ∈ c.map Prod.fst) : (findValue c k).isSome := by
  cases hf : findValue c k with
  | none => exact absurd h (findValue_eq_none.mp hf)
  | some v => rfl

theorem findValue_mem {c : List (K × V)} {k : K} {v : V}
    (h : findValue c k = some v) : (k, v) ∈ c := by
  induction c with
  | nil => simp [findValue] at h
  | cons e es ih =>
      by_cases he : e.1 = k
      · simp only [findValue, if_pos he, Option.some.injEq] at h
        have : e = (k, v) := by
          obtain ⟨a, b⟩ := e
          simp only [Prod.mk.injEq]
          exact ⟨he, h⟩
        rw [← this]
        exact List.mem_cons_self e es
      · simp only [findValue, if_neg he] at h
        exact List.mem_cons_of_mem e (ih h)

theorem findValue_append_of_none {c1 c2 : List (K × V)} {k : K}
    (h : findValue c1 k = none) : findValue (c1 ++ c2) k = findValue c2 k := by
  induction c1 with
  | nil => simp
  | cons e es ih =>
      by_cases he : e.1 = k
      · simp [findValue, he] at h
      · simp only [findValue, if_neg he] at h
        simp only [List.cons_append, findValue, if_neg he]
        exact ih h

theorem findValue_append_of_some {c1 c2 : List (K × V)} {k : K} {v : V}
    (h : findValue c1 k = some v) : findValue (c1 ++ c2) k = some v := by
  induction c1 with
  | nil => simp [findValue] at h
  | cons e es ih =>
      by_cases he : e.1 = k
      · simp only [findValue, if_pos he] at h
        simp only [List.cons_append, findValue, if_pos he]
        exact h
      · simp only [findValue, if_neg he] at h
        simp only [List.cons_append, findValue, if_neg he]
        exact ih h

theorem findValue_singleton_ne {k a : K} {v : V} (h : a ≠ k) :
    findValue [(k, v)] a = none := by
  have : ¬ (k, v).1 = a := fun hk => h hk.symm
  simp [findValue, this]

theorem findValue_removeKey_ne {c : List (K × V)} {a k : K} (h : a ≠ k) :
    findValue (removeKey c k) a = findValue c a := by
  have hka : ¬ k = a := fun hk => h hk.symm
  induction c with
  | nil => simp [removeKey]
  | cons e es ih =>
      by_cases he : e.1 = k
      · have hea : ¬ e.1 = a := by rw [he]; exact hka
        simp [removeKey, he, findValue, hea, hka]
      · by_cases hea : e.1 = a
        · simp [removeKey, he, findValue, hea, h]
        · simp [removeKey, he, findValue, hea, ih]

theorem removeKey_sublist (c : List (K × V)) (k : K) : List.Sublist (removeKey c k) c := by
  induction c with
  | nil => simp [removeKey]
  | cons e es ih =>
      by_cases he : e.1 = k
      · rw [removeKey, if_pos he]
        exact List.sublist_cons_self e es
      · rw [removeKey, if_neg he]
        exact ih.cons₂ e

theorem mem_map_fst_removeKey {c : List (K × V)} {a k : K} (h : a ≠ k) :
    a ∈ (removeKey c k).map Prod.fst ↔ a ∈ c.map Prod.fst := by
  induction c with
  | nil => simp [removeKey]
  | cons e es ih =>
      by_cases he : e.1 = k
      · simp only [removeKey, if_pos he, List.map_cons, List.mem_cons]
        constructor
        · exact Or.inr
        · rintro (rfl | hm)
          · exact absurd he h
          · exact hm
      · simp only [removeKey, if_neg he, List.map_cons, List.mem_cons, ih]

theorem not_mem_map_fst_removeKey {c : List (K × V)} {k : K}
    (h : (c.map Prod.fst).Nodup) : k ∉ (removeKey c k).map Prod.fst := by
  induction c with
  | nil => simp [removeKey]
  | cons e es ih =>
      rw [List.map_cons, List.nodup_cons] at h
      by_cases he : e.1 = k
      · rw [removeKey, if_pos he, ← he]
        exact h.1
      · rw [removeKey, if_neg he, List.map_cons]
        intro hm
        rcases List.mem_cons.mp hm with h1 | h2
        · exact he h1.symm
        · exact ih h.2 h2

theorem nodup_map_fst_removeKey {c : List (K × V)} {k : K}
    (h : (c.map Prod.fst).Nodup) : ((removeKey c k).map Prod.fst).Nodup :=
  h.sublist ((removeKey_sublist c k).map Prod.fst)

theorem length_removeKey {c : List (K × V)} {k : K} (h : k ∈ c.map Prod.fst) :
    (removeKey c k).length + 1 = c.length := by
  induction c with
  | nil => simp at h
  | cons e es ih =>
      by_cases he : e.1 = k
      · simp [removeKey, he]
      · rw [List.map_cons] at h
        have hm : k ∈ es.map Prod.fst := by
          rcases List.mem_cons.mp h with h1 | h2
          · exact absurd h1.symm he
          · exact h2
        have := ih hm
        simp only [removeKey, if_neg he, List.length_cons]
        omega

theorem eraseKey_sublist (l : List K) (k : K) : List.Sublist (eraseKey l k) l := by
  induction l with
  | nil => simp [eraseKey]
  | cons a rest ih =>
      by_cases ha : a = k
      · rw [eraseKey, if_pos ha]
        exact List.sublist_cons_self a rest
      · rw [eraseKey, if_neg ha]
        exact ih.cons₂ a

theorem mem_eraseKey_of_ne {l : List K} {a k : K} (h : a ≠ k) :
    a ∈ eraseKey l k ↔ a ∈ l := by
  induction l with
  | nil => simp [eraseKey]
  | cons b rest ih =>
      by_cases hb : b = k
      · simp only [eraseKey, if_pos hb, List.mem_cons]
        constructor
        · exact Or.inr
        · rintro (rfl | hm)
          · exact absurd hb h
          · exact hm
      · simp only [eraseKey, if_neg hb, List.mem_cons, ih]

theorem not_mem_eraseKey {l : List K} {k : K} (h : l.Nodup) : k ∉ eraseKey l k := by
  induction l with
  | nil => simp [eraseKey]
  | cons b rest ih =>
      rw [List.nodup_cons] at h
      by_cases hb : b = k
      · rw [eraseKey, if_pos hb, ← hb]
        exact h.1
      · rw [eraseKey, if_neg hb]
        intro hm
        rcases List.mem_cons.mp hm with h1 | h2
        · exact hb h1.symm
        · exact ih h.2 h2

theorem nodup_eraseKey {l : List K} {k : K} (h : l.Nodup) : (eraseKey l k).Nodup :=
  h.sublist (eraseKey_sublist l k)

/-! ## State-shape lemmas for the cache operations -/

theorem lru_cache.insert_hit {s : lru_cache K V} {k : K} (hd : k ∈ s.dict)
    {v0 : V} (hv : findValue s.cache k = some v0) (v : V) (u : Bool) :
    s.insert k v u =
      ((some (if u then v else v0), false),
        { s with cache := removeKey s.cache k ++ [(k, if u then v else v0)] }) := by
  simp [lru_cache.insert, hd, hv]

theorem lru_cache.insert_app {s : lru_cache K V} {k : K} (hd : k ∉ s.dict)
    (hl : s.dict.length ≠ s.limit) (v : V) (u : Bool) :
    s.insert k v u =
      ((some v, true), { s with dict := k :: s.dict, cache := s.cache ++ [(k, v)] }) := by
  simp [lru_cache.insert, hd, hl]

theorem lru_cache.insert_evict {s : lru_cache K V} {k : K} (hd : k ∉ s.dict)
    (hl : s.dict.length = s.limit) {front : K × V} {rest : List (K × V)}
    (hc : s.cache = front :: rest) (v : V) (u : Bool) :
    s.insert k v u =
      ((some v, true),
        { s with dict := k :: eraseKey s.dict front.1, cache := rest ++ [(k, v)] }) := by
  simp [lru_cache.insert, hd, hl, hc]

theorem lru_cache.insert_evict_nil {s : lru_cache K V} {k : K} (hd : k ∉ s.dict)
    (hl : s.dict.length = s.limit) (hc : s.cache = []) (v : V) (u : Bool) :
    s.insert k v u = ((none, true), s) := by
  simp [lru_cache.insert, hd, hl, hc]

theorem lru_cache.get_hit {s : lru_cache K V} {k : K} (hd : k ∈ s.dict)
    {v0 : V} (hv : findValue s.cache k = some v0) :
    s.get k = (some v0, { s with cache := removeKey s.cache k ++ [(k, v0)] }) := by
  simp [lru_cache.get, hd, hv]

theorem lru_cache.get_miss {s : lru_cache K V} {k : K} (hd : k ∉ s.dict) :
    s.get k = (none, s) := by
  simp [lru_cache.get, hd]

theorem lru_cache.peek_state (s : lru_cache K V) (k : K) : (s.peek k).2 = s := by
  by_cases hd : k ∈ s.dict
  · cases hv : findValue s.cache k <;> simp [lru_cache.peek, hd, hv]
  · simp [lru_cache.peek, hd]

theorem lru_cache.peek_fst {s : lru_cache K V} (h : s.Inv) (k : K) :
    (s.peek k).1 = findValue s.cache k := by
  by_cases hd : k ∈ s.dict
  · have hk : k ∈ s.cache.map Prod.fst := h.2.2.1 k hd
    cases hv : findValue s.cache k with
    | none => exact absurd hk (findValue_eq_none.mp hv)
    | some v => simp [lru_cache.peek, hd, hv]
  · have hn : findValue s.cache k = none :=
      findValue_eq_none.mpr fun hk => hd (h.2.2.2.1 k hk)
    simp [lru_cache.peek, hd, hn]

omit [DecidableEq K] in
theorem lru_cache.Inv.size_eq {s : lru_cache K V} (h : s.Inv) :
    s.dict.length = s.cache.length := by
  obtain ⟨h1, h2, h3, h4, _⟩ := h
  have hp : List.Perm s.dict s.keys :=
    (List.perm_ext_iff_of_nodup h1 h2).mpr fun a => ⟨h3 a, h4 a⟩
  have hlen := hp.length_eq
  simpa [lru_cache.keys] using hlen

omit [DecidableEq K] in
theorem lru_cache.init_Inv (limit : Nat) :
    (lru_cache.init (K := K) (V := V) limit).Inv := by
  simp [lru_cache.init, lru_cache.Inv, lru_cache.keys]

/-- Splicing a cached node to the back (with any value written into it)
preserves well-formedness. -/
theorem splice_Inv {s : lru_cache K V} (h : s.Inv) {k : K} (hd : k ∈ s.dict)
    (newV : V) :
    lru_cache.Inv { s with cache := removeKey s.cache k ++ [(k, newV)] } := by
  obtain ⟨h1, h2, h3, h4, h5⟩ := h
  have hk : k ∈ s.cache.map Prod.fst := h3 k hd
  refine ⟨h1, ?_, ?_, ?_, ?_⟩
  · show ((removeKey s.cache k ++ [(k, newV)]).map Prod.fst).Nodup
    rw [List.map_append, List.nodup_append]
    refine ⟨nodup_map_fst_removeKey h2, List.nodup_singleton _, ?_⟩
    intro a ha hb
    simp only [List.map_cons, List.map_nil, List.mem_singleton] at hb
    subst hb
    exact not_mem_map_fst_removeKey h2 ha
  · intro k2 hk2
    show k2 ∈ (removeKey s.cache k ++ [(k, newV)]).map Prod.fst
    rw [List.map_append]
    by_cases he : k2 = k
    · subst he
      exact List.mem_append_right _ (by simp)
    · exact List.mem_append_left _ ((mem_map_fst_removeKey he).mpr (h3 k2 hk2))
  · intro k2 hk2
    have hk2 : k2 ∈ (removeKey s.cache k).map Prod.fst ++ [k] := by
      simpa [lru_cache.keys, List.map_append] using hk2
    rcases List.mem_append.mp hk2 with hL | hR
    · exact h4 k2 (((removeKey_sublist s.cache k).map Prod.fst).subset hL)
    · simp only [List.mem_singleton] at hR
      subst hR
      exact hd
  · show (removeKey s.cache k ++ [(k, newV)]).length ≤ s.limit
    rw [List.length_append]
    have := length_removeKey (c := s.cache) (k := k) hk
    simp only [List.length_singleton]
    omega

theorem lru_cache.insert_Inv {s : lru_cache K V} (h : s.Inv) (k : K) (v : V)
    (u : Bool) : ((s.insert k v u).2).Inv := by
  by_cases hd : k ∈ s.dict
  · have hk : k ∈ s.cache.map Prod.fst := h.2.2.1 k hd
    obtain ⟨v0, hv0⟩ := Option.isSome_iff_exists.mp (findValue_isSome_of_mem hk)
    rw [lru_cache.insert_hit hd hv0]
    exact splice_Inv h hd _
  · by_cases hl : s.dict.length ≠ s.limit
    · rw [lru_cache.insert_app hd hl]
      obtain ⟨h1, h2, h3, h4, h5⟩ := h
      have hnk : k ∉ s.cache.map Prod.fst := fun hm => hd (h4 k hm)
      refine ⟨List.nodup_cons.mpr ⟨hd, h1⟩, ?_, ?_, ?_, ?_⟩
      · show ((s.cache ++ [(k, v)]).map Prod.fst).Nodup
        rw [List.map_append, List.nodup_append]
        refine ⟨h2, List.nodup_singleton _, ?_⟩
        intro a ha hb
        simp only [List.map_cons, List.map_nil, List.mem_singleton] at hb
        subst hb
        exact hnk ha
      · intro k2 hk2
        show k2 ∈ (s.cache ++ [(k, v)]).map Prod.fst
        rw [List.map_append]
        rcases List.mem_cons.mp hk2 with rfl | hm
        · exact List.mem_append_right _ (by simp)
        · exact List.mem_append_left _ (h3 k2 hm)
      · intro k2 hk2
        have hk2 : k2 ∈ s.cache.map Prod.fst ++ [k] := by
          simpa [lru_cache.keys, List.map_append] using hk2
        rcases List.mem_append.mp hk2 with hL | hR
        · exact List.mem_cons_of_mem _ (h4 k2 hL)
        · simp only [List.mem_singleton] at hR
          subst hR
          exact List.mem_cons_self _ _
      · show (s.cache ++ [(k, v)]).length ≤ s.limit
        have hde : s.dict.length = s.cache.length :=
          lru_cache.Inv.size_eq ⟨h1, h2, h3, h4, h5⟩
        rw [List.length_append]
        simp only [List.length_singleton]
        omega
    · push_neg at hl
      cases hc : s.cache with
      | nil =>
          rw [lru_cache.insert_evict_nil hd hl hc]
          exact h
      | cons front rest =>
          rw [lru_cache.insert_evict hd hl hc]
          obtain ⟨h1, h2, h3, h4, h5⟩ := h
          have h2c : (front.1 :: rest.map Prod.fst).Nodup := by
            have h2x := h2
            simp only [lru_cache.keys, hc, List.map_cons] at h2x
            exact h2x
          have hf1 : front.1 ∉ rest.map Prod.fst := (List.nodup_cons.mp h2c).1
          have h2r : (rest.map Prod.fst).Nodup := (List.nodup_cons.mp h2c).2
          have hfd : front.1 ∈ s.dict := h4 front.1 (by simp [lru_cache.keys, hc])
          have hknr : k ∉ rest.map Prod.fst := fun hm =>
            hd (h4 k (by simp [lru_cache.keys, hc, hm]))
          refine ⟨?_, ?_, ?_, ?_, ?_⟩
          · refine List.nodup_cons.mpr ⟨?_, nodup_eraseKey h1⟩
            intro hm
            exact hd ((eraseKey_sublist s.dict front.1).subset hm)
          · show ((rest ++ [(k, v)]).map Prod.fst).Nodup
            rw [List.map_append, List.nodup_append]
            refine ⟨h2r, List.nodup_singleton _, ?_⟩
            intro a ha hb
            simp only [List.map_cons, List.map_nil, List.mem_singleton] at hb
            subst hb
            exact hknr ha
          · intro k2 hk2
            show k2 ∈ (rest ++ [(k, v)]).map Prod.fst
            rw [List.map_append]
            rcases List.mem_cons.mp hk2 with rfl | hm
            · exact List.mem_append_right _ (by simp)
            · have hne : k2 ≠ front.1 := by
                intro he
                subst he
                exact not_mem_eraseKey h1 hm
              have hk2d : k2 ∈ s.dict := (eraseKey_sublist s.dict front.1).subset hm
              have hk2k : k2 ∈ front.1 :: rest.map Prod.fst := by
                have := h3 k2 hk2d
                simpa [lru_cache.keys, hc] using this
              rcases List.mem_cons.mp hk2k with h1x | h2x
              · exact absurd h1x hne
              · exact List.mem_append_left _ h2x
          · intro k2 hk2
            have hk2 : k2 ∈ rest.map Prod.fst ++ [k] := by
              simpa [lru_cache.keys, List.map_append] using hk2
            rcases List.mem_append.mp hk2 with hL | hR
            · have hk2d : k2 ∈ s.dict := h4 k2 (by simp [lru_cache.keys, hc, hL])
              have hne : k2 ≠ front.1 := fun he => (he ▸ hf1) hL
              exact List.mem_cons_of_mem _ ((mem_eraseKey_of_ne hne).mpr hk2d)
            · simp only [List.mem_singleton] at hR
              subst hR
              exact List.mem_cons_self _ _
          · show (rest ++ [(k, v)]).length ≤ s.limit
            have h5c : s.cache.length ≤ s.limit := h5
            rw [hc] at h5c
            have hlen2 : (rest ++ [(k, v)]).length = rest.length + 1 := by simp
            simp only [List.length_cons] at h5c
            omega

theorem lru_cache.get_Inv {s : lru_cache K V} (h : s.Inv) (k : K) :
    ((s.get k).2).Inv := by
  by_cases hd : k ∈ s.dict
  · obtain ⟨v0, hv0⟩ :=
      Option.isSome_iff_exists.mp (findValue_isSome_of_mem (h.2.2.1 k hd))
    rw [lru_cache.get_hit hd hv0]
    exact splice_Inv h hd _
  · rw [lru_cache.get_miss hd]
    exact h

theorem lru_cache.step_Inv {s : lru_cache K V} (h : s.Inv) (op : LOp K V) :
    (s.step op).Inv := by
  cases op with
  | ins k v u => exact lru_cache.insert_Inv h k v u
  | getOrIns k v => exact lru_cache.insert_Inv h k v false
  | get k => exact lru_cache.get_Inv h k
  | peek k =>
      show ((s.peek k).2).Inv
      rw [lru_cache.peek_state]
      exact h
  | each => exact h

theorem lru_cache.run_Inv {s : lru_cache K V} (h : s.Inv) (t : List (LOp K V)) :
    (s.run t).Inv := by
  induction t generalizing s with
  | nil => exact h
  | cons op t ih => exact ih (lru_cache.step_Inv h op)

theorem lru_cache.step_limit (s : lru_cache K V) (op : LOp K V) :
    (s.step op).limit = s.limit := by
  have hins : ∀ (k : K) (v : V) (u : Bool), ((s.insert k v u).2).limit = s.limit := by
    intro k v u
    by_cases hd : k ∈ s.dict
    · cases hv : findValue s.cache k <;> simp [lru_cache.insert, hd, hv]
    · by_cases hl : s.dict.length ≠ s.limit
      · simp [lru_cache.insert, hd, hl]
      · push_neg at hl
        cases hc : s.cache <;> simp [lru_cache.insert, hd, hl, hc]
  cases op with
  | ins k v u => exact hins k v u
  | getOrIns k v => exact hins k v false
  | get k =>
      by_cases hd : k ∈ s.dict
      · cases hv : findValue s.cache k <;> simp [lru_cache.step, lru_cache.get, hd, hv]
      · simp [lru_cache.step, lru_cache.get, hd]
  | peek k =>
      show ((s.peek k).2).limit = s.limit
      rw [lru_cache.peek_state]
  | each => rfl

theorem lru_cache.run_limit (s : lru_cache K V) (t : List (LOp K V)) :
    (s.run t).limit = s.limit := by
  induction t generalizing s with
  | nil => rfl
  | cons op t ih => rw [lru_cache.run, List.foldl_cons]
                    rw [show List.foldl lru_cache.step (s.step op) t = (s.step op).run t from rfl]
                    rw [ih, lru_cache.step_limit]

theorem lru_cache.run_append (s : lru_cache K V) (t1 t2 : List (LOp K V)) :
    s.run (t1 ++ t2) = (s.run t1).run t2 := by
  simp [lru_cache.run, List.foldl_append]

/-! ## Claims about construction, peek and insert-on-present-key -/

/-- C8: constructing with limit 0 violates the construction-time assert
condition; every limit of at least 1 satisfies it and construction yields
an empty cache with that limit; lookups never signal errors: a miss is the
absent optional result and a hit carries the stored value. -/
theorem claim_C8 :
    lru_cache.ctorAssert 0 = false ∧
    (∀ limit : Nat, 1 ≤ limit → lru_cache.ctorAssert limit = true) ∧
    (∀ limit : Nat,
      (lru_cache.init (K := K) (V := V) limit).dict = [] ∧
      (lru_cache.init (K := K) (V := V) limit).cache = [] ∧
      (lru_cache.init (K := K) (V := V) limit).limit = limit) ∧
    (∀ (s : lru_cache K V) (k : K), k ∉ s.dict →
      (s.get k).1 = none ∧ (s.peek k).1 = none) ∧
    (∀ (s : lru_cache K V) (k : K), s.Inv → k ∈ s.dict →
      ((s.get k).1).isSome ∧ ((s.peek k).1).isSome) := by
  refine ⟨rfl, ?_, ?_, ?_, ?_⟩
  · intro limit hl
    simp only [lru_cache.ctorAssert, decide_eq_true_eq]
    omega
  · intro limit
    exact ⟨rfl, rfl, rfl⟩
  · intro s k hd
    constructor
    · rw [lru_cache.get_miss hd]
    · simp [lru_cache.peek, hd]
  · intro s k hInv hd
    obtain ⟨v0, hv0⟩ :=
      Option.isSome_iff_exists.mp (findValue_isSome_of_mem (hInv.2.2.1 k hd))
    constructor
    · rw [lru_cache.get_hit hd hv0]
      rfl
    · rw [lru_cache.peek_fst hInv, hv0]
      rfl

/-- C4: peek never changes the cache state - present keys, stored values
and recency order are all as before - so any subsequent insert (in
particular an at-capacity insert and the eviction it performs) behaves
exactly as if peek had not been called; peek returns the stored value of a
present key and the absent result for an absent one. -/
theorem claim_C4 (s : lru_cache K V) (hInv : s.Inv) (k : K) :
    (s.peek k).2 = s ∧
    (∀ (k2 : K) (v : V) (u : Bool),
      ((s.peek k).2).insert k2 v u = s.insert k2 v u) ∧
    (s.peek k).1 = findValue s.cache k := by
  refine ⟨lru_cache.peek_state s k, ?_, lru_cache.peek_fst hInv k⟩
  intro k2 v u
  rw [lru_cache.peek_state]

/-- C3: insert on a present key holding v1: with update=false the stored
value stays v1, with update=true it becomes v2; both report
inserted=false, return the stored value, move the key to the
most-recently-used (back) position, and remove nothing - the dict, the
entry count, the key set and every other stored value are unchanged. -/
theorem claim_C3 (s : lru_cache K V) (hInv : s.Inv) (k : K) (v1 v2 : V)
    (upd : Bool) (hv : findValue s.cache k = some v1) :
    (s.insert k v2 upd).1.2 = false ∧
    (s.insert k v2 upd).1.1 = some (if upd then v2 else v1) ∧
    findValue ((s.insert k v2 upd).2).cache k = some (if upd then v2 else v1) ∧
    ((s.insert k v2 upd).2).cache.getLast? = some (k, if upd then v2 else v1) ∧
    ((s.insert k v2 upd).2).cache.length = s.cache.length ∧
    ((s.insert k v2 upd).2).dict = s.dict ∧
    (∀ k2, k2 ≠ k →
      findValue ((s.insert k v2 upd).2).cache k2 = findValue s.cache k2) ∧
    (∀ k2, k2 ∈ ((s.insert k v2 upd).2).keys ↔ k2 ∈ s.keys) := by
  have hk : k ∈ s.cache.map Prod.fst := List.mem_map_of_mem Prod.fst (findValue_mem hv)
  have hd : k ∈ s.dict := hInv.2.2.2.1 k hk
  have h2 : (s.cache.map Prod.fst).Nodup := hInv.2.1
  rw [lru_cache.insert_hit hd hv]
  have hnone : findValue (removeKey s.cache k) k = none :=
    findValue_eq_none.mpr (not_mem_map_fst_removeKey h2)
  refine ⟨rfl, rfl, ?_, ?_, ?_, rfl, ?_, ?_⟩
  · rw [findValue_append_of_none hnone]
    simp [findValue]
  · exact List.getLast?_concat _
  · show (removeKey s.cache k ++ [(k, if upd then v2 else v1)]).length = s.cache.length
    rw [List.length_append]
    have := length_removeKey (c := s.cache) (k := k) hk
    simp only [List.length_singleton]
    omega
  · intro k2 hne
    show findValue (removeKey s.cache k ++ [(k, if upd then v2 else v1)]) k2
        = findValue s.cache k2
    cases hfk : findValue (removeKey s.cache k) k2 with
    | none =>
        rw [findValue_append_of_none hfk, findValue_singleton_ne hne,
          ← findValue_removeKey_ne hne, hfk]
    | some w =>
        rw [findValue_append_of_some hfk, ← findValue_removeKey_ne hne, hfk]
  · intro k2
    show k2 ∈ (removeKey s.cache k ++ [(k, if upd then v2 else v1)]).map Prod.fst
        ↔ k2 ∈ s.keys
    rw [List.map_append]
    by_cases hne : k2 = k
    · subst hne
      have hR : k2 ∈ (removeKey s.cache k2).map Prod.fst
          ++ [(k2, if upd then v2 else v1)].map Prod.fst := by
        simp
      exact ⟨fun _ => hk, fun _ => hR⟩
    · simp only [List.map_cons, List.map_nil, List.mem_append, List.mem_singleton,
        hne, or_false]
      exact mem_map_fst_removeKey hne

/-! ## Claim C1: strict LRU eviction of the first-inserted key -/

/-- Inserting a block of fresh, pairwise distinct keys into a cache with
enough remaining room appends them in order at the back and pushes their
keys onto the dict. -/
theorem run_fill (ps : List (K × V)) :
    ∀ s : lru_cache K V, s.Inv → (ps.map Prod.fst).Nodup →
      (∀ p ∈ ps, p.1 ∉ s.dict) →
      s.dict.length + ps.length ≤ s.limit →
      (s.run (ps.map fun p => LOp.ins p.1 p.2 false)).cache = s.cache ++ ps ∧
      (s.run (ps.map fun p => LOp.ins p.1 p.2 false)).dict
        = (ps.map Prod.fst).reverse ++ s.dict := by
  induction ps with
  | nil =>
      intro s _ _ _ _
      exact ⟨by simp [lru_cache.run], by simp [lru_cache.run]⟩
  | cons p ps ih =>
      intro s hInv hnd hfresh hlen
      have hd : p.1 ∉ s.dict := hfresh p (List.mem_cons_self _ _)
      have hde : s.dict.length = s.cache.length := hInv.size_eq
      have hne : s.dict.length ≠ s.limit := by
        simp only [List.length_cons] at hlen
        omega
      have hstep : s.step (LOp.ins p.1 p.2 false)
          = { s with dict := p.1 :: s.dict, cache := s.cache ++ [p] } := by
        show (s.insert p.1 p.2 false).2 = _
        rw [lru_cache.insert_app hd hne]
      have hInv2 : lru_cache.Inv
          { s with dict := p.1 :: s.dict, cache := s.cache ++ [p] } := by
        have hstep2 := lru_cache.insert_Inv hInv p.1 p.2 false
        rw [lru_cache.insert_app hd hne] at hstep2
        exact hstep2
      have hnd2 : (ps.map Prod.fst).Nodup := by
        rw [List.map_cons] at hnd
        exact (List.nodup_cons.mp hnd).2
      have hp1 : p.1 ∉ ps.map Prod.fst := by
        rw [List.map_cons] at hnd
        exact (List.nodup_cons.mp hnd).1
      have hfresh2 : ∀ q ∈ ps,
          q.1 ∉ ({ s with dict := p.1 :: s.dict, cache := s.cache ++ [p] }
            : lru_cache K V).dict := by
        intro q hq hmem
        rcases List.mem_cons.mp hmem with h1 | h2
        · exact hp1 (h1 ▸ List.mem_map_of_mem Prod.fst hq)
        · exact hfresh q (List.mem_cons_of_mem _ hq) h2
      have hlen2 : ({ s with dict := p.1 :: s.dict, cache := s.cache ++ [p] }
            : lru_cache K V).dict.length + ps.length
          ≤ ({ s with dict := p.1 :: s.dict, cache := s.cache ++ [p] }
            : lru_cache K V).limit := by
        show (p.1 :: s.dict).length + ps.length ≤ s.limit
        simp only [List.length_cons] at *
        omega
      obtain ⟨hc, hdres⟩ := ih _ hInv2 hnd2 hfresh2 hlen2
      have hrun : s.run ((p :: ps).map fun p => LOp.ins p.1 p.2 false)
          = ({ s with dict := p.1 :: s.dict, cache := s.cache ++ [p] }
              : lru_cache K V).run (ps.map fun p => LOp.ins p.1 p.2 false) := by
        rw [← hstep]
        rfl
      rw [hrun]
      constructor
      · rw [hc]
        show (s.cache ++ [p]) ++ ps = s.cache ++ p :: ps
        rw [List.append_assoc]
        rfl
      · rw [hdres]
        show (ps.map Prod.fst).reverse ++ (p.1 :: s.dict)
            = ((p :: ps).map Prod.fst).reverse ++ s.dict
        rw [List.map_cons, List.reverse_cons, List.append_assoc]
        rfl

/-- C1: starting from a fresh cache with capacity limit of at least 1, a
sequence of limit + 1 inserts with pairwise distinct keys and no other
intervening operations leaves exactly the first-inserted key absent (get
and peek return the absent result for it) while every one of the limit
later keys is present. -/
theorem claim_C1 (limit : Nat) (hl : 1 ≤ limit) (p0 : K × V)
    (mid : List (K × V)) (plast : K × V) (hlen : mid.length + 1 = limit)
    (hnd : (((p0 :: mid) ++ [plast]).map Prod.fst).Nodup) :
    (((lru_cache.init (K := K) (V := V) limit).run
        (((p0 :: mid) ++ [plast]).map fun p => LOp.ins p.1 p.2 false)).peek
          p0.1).1 = none ∧
    (((lru_cache.init (K := K) (V := V) limit).run
        (((p0 :: mid) ++ [plast]).map fun p => LOp.ins p.1 p.2 false)).get
          p0.1).1 = none ∧
    (∀ p ∈ mid ++ [plast],
      ((((lru_cache.init (K := K) (V := V) limit).run
        (((p0 :: mid) ++ [plast]).map fun p => LOp.ins p.1 p.2 false)).peek
          p.1).1).isSome) := by
  have hmapappend : (((p0 :: mid) ++ [plast]).map fun p => LOp.ins p.1 p.2 false)
      = ((p0 :: mid).map fun p => LOp.ins p.1 p.2 false)
        ++ [LOp.ins plast.1 plast.2 false] := by
    rw [List.map_append]
    rfl
  rw [List.map_append] at hnd
  obtain ⟨hnd1, hndR, hdisj⟩ := List.nodup_append.mp hnd
  obtain ⟨hc1, hd1⟩ := run_fill (p0 :: mid) (lru_cache.init (K := K) (V := V) limit)
    (lru_cache.init_Inv limit) hnd1
    (by intro p hp hmem; simp [lru_cache.init] at hmem)
    (by simp only [lru_cache.init, List.length_nil, List.length_cons]; omega)
  rw [show (lru_cache.init (K := K) (V := V) limit).cache = [] from rfl,
    List.nil_append] at hc1
  rw [show (lru_cache.init (K := K) (V := V) limit).dict = [] from rfl,
    List.append_nil] at hd1
  have hInv1 := lru_cache.run_Inv (lru_cache.init_Inv (K := K) (V := V) limit)
    ((p0 :: mid).map fun p => LOp.ins p.1 p.2 false)
  have hlimit1 := lru_cache.run_limit (lru_cache.init (K := K) (V := V) limit)
    ((p0 :: mid).map fun p => LOp.ins p.1 p.2 false)
  have hdlen : ((lru_cache.init (K := K) (V := V) limit).run
      ((p0 :: mid).map fun p => LOp.ins p.1 p.2 false)).dict.length = limit := by
    rw [hd1]
    simp only [List.length_reverse, List.length_map, List.length_cons]
    omega
  have hplastd : plast.1 ∉ ((lru_cache.init (K := K) (V := V) limit).run
      ((p0 :: mid).map fun p => LOp.ins p.1 p.2 false)).dict := by
    rw [hd1]
    intro hmem
    rw [List.mem_reverse] at hmem
    exact hdisj hmem (by simp)
  have hstep := lru_cache.insert_evict hplastd (by rw [hdlen, hlimit1]; rfl) hc1
    plast.2 false
  have hd2 : ((lru_cache.init (K := K) (V := V) limit).run
        (((p0 :: mid) ++ [plast]).map fun p => LOp.ins p.1 p.2 false)).dict
      = plast.1 :: eraseKey (((lru_cache.init (K := K) (V := V) limit).run
        ((p0 :: mid).map fun p => LOp.ins p.1 p.2 false)).dict) p0.1 := by
    rw [hmapappend, lru_cache.run_append]
    show (((lru_cache.init (K := K) (V := V) limit).run
        ((p0 :: mid).map fun p => LOp.ins p.1 p.2 false)).insert
          plast.1 plast.2 false).2.dict = _
    rw [hstep]
  have hInv2 : ((lru_cache.init (K := K) (V := V) limit).run
      (((p0 :: mid) ++ [plast]).map fun p => LOp.ins p.1 p.2 false)).Inv :=
    lru_cache.run_Inv (lru_cache.init_Inv limit) _
  have hp0plast : p0.1 ≠ plast.1 := by
    intro he
    exact hdisj (show p0.1 ∈ (p0 :: mid).map Prod.fst by simp) (by simp [he])
  have hp0not : p0.1 ∉ ((lru_cache.init (K := K) (V := V) limit).run
      (((p0 :: mid) ++ [plast]).map fun p => LOp.ins p.1 p.2 false)).dict := by
    rw [hd2]
    intro hmem
    rcases List.mem_cons.mp hmem with h1 | h2
    · exact hp0plast h1
    · exact not_mem_eraseKey hInv1.1 h2
  refine ⟨?_, ?_, ?_⟩
  · simp only [lru_cache.peek, if_neg hp0not]
  · rw [lru_cache.get_miss hp0not]
  · intro p hp
    have hpd : p.1 ∈ ((lru_cache.init (K := K) (V := V) limit).run
        (((p0 :: mid) ++ [plast]).map fun p => LOp.ins p.1 p.2 false)).dict := by
      rw [hd2]
      rcases List.mem_append.mp hp with hm | hpl
      · have hp1r : p.1 ∈ ((lru_cache.init (K := K) (V := V) limit).run
            ((p0 :: mid).map fun p => LOp.ins p.1 p.2 false)).dict := by
          rw [hd1, List.mem_reverse, List.map_cons]
          exact List.mem_cons_of_mem _ (List.mem_map_of_mem Prod.fst hm)
        have hne : p.1 ≠ p0.1 := by
          intro he
          have hmem2 : p0.1 ∈ mid.map Prod.fst :=
            he ▸ List.mem_map_of_mem Prod.fst hm
          have hnodup := hnd1
          rw [List.map_cons] at hnodup
          exact (List.nodup_cons.mp hnodup).1 hmem2
        exact List.mem_cons_of_mem _ ((mem_eraseKey_of_ne hne).mpr hp1r)
      · simp only [List.mem_singleton] at hpl
        subst hpl
        exact List.mem_cons_self _ _
    rw [lru_cache.peek_fst hInv2]
    exact findValue_isSome_of_mem (hInv2.2.2.1 p.1 hpd)

/-! ## Claim C2: size invariants along arbitrary operation sequences -/

theorem lru_cache.step_size_mono (s : lru_cache K V) (op : LOp K V) :
    s.cache.length ≤ (s.step op).cache.length := by
  have hins : ∀ (k : K) (v : V) (u : Bool),
      s.cache.length ≤ ((s.insert k v u).2).cache.length := by
    intro k v u
    by_cases hd : k ∈ s.dict
    · cases hv : findValue s.cache k with
      | none => simp [lru_cache.insert, hd, hv]
      | some v0 =>
          rw [lru_cache.insert_hit hd hv]
          show s.cache.length ≤ (removeKey s.cache k ++ [(k, if u then v else v0)]).length
          rw [List.length_append]
          have hk : k ∈ s.cache.map Prod.fst :=
            List.mem_map_of_mem Prod.fst (findValue_mem hv)
          have := length_removeKey (c := s.cache) (k := k) hk
          simp only [List.length_singleton]
          omega
    · by_cases hlim : s.dict.length ≠ s.limit
      · rw [lru_cache.insert_app hd hlim]
        show s.cache.length ≤ (s.cache ++ [(k, v)]).length
        rw [List.length_append]
        simp only [List.length_singleton]
        omega
      · push_neg at hlim
        cases hc : s.cache with
        | nil =>
            rw [lru_cache.insert_evict_nil hd hlim hc]
            simp [hc]
        | cons front rest =>
            rw [lru_cache.insert_evict hd hlim hc]
            show (front :: rest).length ≤ (rest ++ [(k, v)]).length
            rw [List.length_append]
            simp only [List.length_cons, List.length_singleton]
            omega
  cases op with
  | ins k v u => exact hins k v u
  | getOrIns k v => exact hins k v false
  | get k =>
      show s.cache.length ≤ ((s.get k).2).cache.length
      by_cases hd : k ∈ s.dict
      · cases hv : findValue s.cache k with
        | none => simp [lru_cache.get, hd, hv]
        | some v0 =>
            rw [lru_cache.get_hit hd hv]
            show s.cache.length ≤ (removeKey s.cache k ++ [(k, v0)]).length
            rw [List.length_append]
            have hk : k ∈ s.cache.map Prod.fst :=
              List.mem_map_of_mem Prod.fst (findValue_mem hv)
            have := length_removeKey (c := s.cache) (k := k) hk
            simp only [List.length_singleton]
            omega
      · rw [lru_cache.get_miss hd]
  | peek k =>
      show s.cache.length ≤ ((s.peek k).2).cache.length
      rw [lru_cache.peek_state]
  | each => exact le_refl _

/-- How one insert or getOrInsert call advances the size invariant used
for claim C2: seen is the set of keys passed to inserting calls so far. -/
theorem size_aux_ins {s : lru_cache K V} {seen : Finset K} (hInv : s.Inv)
    (hl : 1 ≤ s.limit)
    (hsize : s.cache.length = min s.limit seen.card)
    (hsub : ∀ k2 ∈ s.dict, k2 ∈ seen)
    (hsub2 : seen.card < s.limit → ∀ k2 ∈ seen, k2 ∈ s.dict)
    (k : K) (v : V) (u : Bool) :
    ((s.insert k v u).2).cache.length = min s.limit (insert k seen).card ∧
    (∀ k2 ∈ ((s.insert k v u).2).dict, k2 ∈ insert k seen) ∧
    ((insert k seen).card < s.limit →
      ∀ k2 ∈ insert k seen, k2 ∈ ((s.insert k v u).2).dict) := by
  have hde : s.dict.length = s.cache.length := hInv.size_eq
  by_cases hd : k ∈ s.dict
  · obtain ⟨v0, hv0⟩ :=
      Option.isSome_iff_exists.mp (findValue_isSome_of_mem (hInv.2.2.1 k hd))
    rw [lru_cache.insert_hit hd hv0]
    have hins : insert k seen = seen := Finset.insert_eq_self.mpr (hsub k hd)
    rw [hins]
    have hlen : (removeKey s.cache k ++ [(k, if u then v else v0)]).length
        = s.cache.length := by
      rw [List.length_append]
      have := length_removeKey (c := s.cache) (k := k) (hInv.2.2.1 k hd)
      simp only [List.length_singleton]
      omega
    refine ⟨?_, hsub, hsub2⟩
    show (removeKey s.cache k ++ [(k, if u then v else v0)]).length
        = min s.limit seen.card
    rw [hlen]
    exact hsize
  · by_cases hlim : s.dict.length ≠ s.limit
    · rw [lru_cache.insert_app hd hlim]
      have hknotseen : k ∉ seen := by
        intro hk
        by_cases hcard : seen.card < s.limit
        · exact hd (hsub2 hcard k hk)
        · push_neg at hcard
          rw [min_eq_left hcard] at hsize
          omega
      have hcard2 : (insert k seen).card = seen.card + 1 :=
        Finset.card_insert_of_not_mem hknotseen
      have hlt : s.cache.length < s.limit := by
        have := hInv.2.2.2.2
        omega
      have hseencard : seen.card = s.cache.length := by
        rcases le_or_lt seen.card s.limit with hle | hgt
        · rw [min_eq_right hle] at hsize
          omega
        · rw [min_eq_left (le_of_lt hgt)] at hsize
          omega
      refine ⟨?_, ?_, ?_⟩
      · show (s.cache ++ [(k, v)]).length = min s.limit (insert k seen).card
        rw [List.length_append, hcard2, min_eq_right (by omega)]
        simp only [List.length_singleton]
        omega
      · intro k2 hk2
        rcases List.mem_cons.mp hk2 with rfl | hm
        · exact Finset.mem_insert_self _ _
        · exact Finset.mem_insert_of_mem (hsub k2 hm)
      · intro hcard k2 hk2
        rcases Finset.mem_insert.mp hk2 with rfl | hm
        · exact List.mem_cons_self _ _
        · refine List.mem_cons_of_mem _ (hsub2 ?_ k2 hm)
          rw [hcard2] at hcard
          omega
    · push_neg at hlim
      have hclen : s.cache.length = s.limit := by omega
      have hcne : s.cache ≠ [] := by
        intro hnil
        rw [hnil] at hclen
        simp only [List.length_nil] at hclen
        omega
      obtain ⟨front, rest, hc⟩ := List.exists_cons_of_ne_nil hcne
      rw [lru_cache.insert_evict hd hlim hc]
      have hcardge : s.limit ≤ seen.card := by
        by_contra hlt2
        push_neg at hlt2
        rw [min_eq_right (le_of_lt hlt2)] at hsize
        have := hsub2 (by omega)
        omega
      have hcardge2 : s.limit ≤ (insert k seen).card :=
        le_trans hcardge (Finset.card_le_card (Finset.subset_insert _ _))
      refine ⟨?_, ?_, ?_⟩
      · show (rest ++ [(k, v)]).length = min s.limit (insert k seen).card
        rw [min_eq_left hcardge2]
        have hlc : (front :: rest).length = s.limit := by
          rw [← hc]
          exact hclen
        simp only [List.length_cons] at hlc
        rw [List.length_append]
        simp only [List.length_singleton]
        omega
      · intro k2 hk2
        rcases List.mem_cons.mp hk2 with rfl | hm
        · exact Finset.mem_insert_self _ _
        · exact Finset.mem_insert_of_mem
            (hsub k2 ((eraseKey_sublist s.dict front.1).subset hm))
      · intro hcard
        exfalso
        omega

/-- The size of a cache run from a state whose size already matches the
seen-keys formula: the size is the minimum of the limit and the number of
distinct keys ever passed to an inserting call. -/
theorem run_size_aux (t : List (LOp K V)) :
    ∀ (s : lru_cache K V) (seen : Finset K), s.Inv → 1 ≤ s.limit →
      s.cache.length = min s.limit seen.card →
      (∀ k2 ∈ s.dict, k2 ∈ seen) →
      (seen.card < s.limit → ∀ k2 ∈ seen, k2 ∈ s.dict) →
      (s.run t).cache.length
        = min s.limit (seen ∪ (insKeys t).toFinset).card := by
  induction t with
  | nil =>
      intro s seen hInv hl hsize hsub hsub2
      simpa [insKeys, lru_cache.run] using hsize
  | cons op t ih =>
      intro s seen hInv hl hsize hsub hsub2
      have hins : ∀ (k : K) (v : V) (u : Bool),
          (s.run (LOp.ins k v u :: t)) = ((s.insert k v u).2).run t :=
        fun _ _ _ => rfl
      cases op with
      | ins k v u =>
          have haux := size_aux_ins hInv hl hsize hsub hsub2 k v u
          have hInv2 := lru_cache.insert_Inv hInv k v u
          have hlim2 : ((s.insert k v u).2).limit = s.limit :=
            lru_cache.step_limit s (LOp.ins k v u)
          have hrec := ih ((s.insert k v u).2) (insert k seen) hInv2
            (by rw [hlim2]; exact hl)
            (by rw [hlim2]; exact haux.1) haux.2.1
            (by rw [hlim2]; exact haux.2.2)
          rw [hins k v u, hrec, hlim2]
          have hik : insKeys (LOp.ins k v u :: t) = k :: insKeys t := by
            simp [insKeys, LOp.insKey]
          rw [hik, List.toFinset_cons, Finset.union_insert, Finset.insert_union]
      | getOrIns k v =>
          have haux := size_aux_ins hInv hl hsize hsub hsub2 k v false
          have hInv2 := lru_cache.insert_Inv hInv k v false
          have hlim2 : ((s.insert k v false).2).limit = s.limit :=
            lru_cache.step_limit s (LOp.ins k v false)
          have hrec := ih ((s.insert k v false).2) (insert k seen) hInv2
            (by rw [hlim2]; exact hl)
            (by rw [hlim2]; exact haux.1) haux.2.1
            (by rw [hlim2]; exact haux.2.2)
          rw [show (s.run (LOp.getOrIns k v :: t)) = ((s.insert k v false).2).run t
            from rfl, hrec, hlim2]
          have hik : insKeys (LOp.getOrIns k v :: t) = k :: insKeys t := by
            simp [insKeys, LOp.insKey]
          rw [hik, List.toFinset_cons, Finset.union_insert, Finset.insert_union]
      | get k =>
          have hInv2 := lru_cache.get_Inv hInv k
          have hshape : ((s.get k).2).dict = s.dict ∧
              ((s.get k).2).cache.length = s.cache.length ∧
              ((s.get k).2).limit = s.limit := by
            by_cases hd : k ∈ s.dict
            · obtain ⟨v0, hv0⟩ := Option.isSome_iff_exists.mp
                (findValue_isSome_of_mem (hInv.2.2.1 k hd))
              rw [lru_cache.get_hit hd hv0]
              refine ⟨rfl, ?_, rfl⟩
              show (removeKey s.cache k ++ [(k, v0)]).length = s.cache.length
              rw [List.length_append]
              have := length_removeKey (c := s.cache) (k := k) (hInv.2.2.1 k hd)
              simp only [List.length_singleton]
              omega
            · rw [lru_cache.get_miss hd]
              exact ⟨rfl, rfl, rfl⟩
          have hrec := ih ((s.get k).2) seen hInv2
            (by rw [hshape.2.2]; exact hl)
            (by rw [hshape.2.1, hshape.2.2]; exact hsize)
            (by rw [hshape.1]; exact hsub)
            (by rw [hshape.2.2, hshape.1]; exact hsub2)
          rw [show (s.run (LOp.get k :: t)) = ((s.get k).2).run t from rfl,
            hrec, hshape.2.2]
          have hik : insKeys (LOp.get k :: t) = insKeys t := by
            simp [insKeys, LOp.insKey]
          rw [hik]
      | peek k =>
          have hs2 : (s.peek k).2 = s := lru_cache.peek_state s k
          have hrec := ih s seen hInv hl hsize hsub hsub2
          rw [show (s.run (LOp.peek k :: t)) = ((s.peek k).2).run t from rfl,
            hs2, hrec]
          have hik : insKeys (LOp.peek k :: t) = insKeys t := by
            simp [insKeys, LOp.insKey]
          rw [hik]
      | each =>
          have hrec := ih s seen hInv hl hsize hsub hsub2
          rw [show (s.run (LOp.each :: t)) = s.run t from rfl, hrec]
          have hik : insKeys (LOp.each :: (t : List (LOp K V))) = insKeys t := by
            simp [insKeys, LOp.insKey]
          rw [hik]

/-- C2: along every operation sequence on a cache of limit at least 1, the
dict size equals the recency-list length, the size never exceeds the
limit, the size equals min(limit, number of distinct keys passed to
inserting calls), no operation ever shrinks the cache, and once limit
distinct keys have been inserted the size equals limit from then on. -/
theorem claim_C2 (limit : Nat) (hl : 1 ≤ limit) (t : List (LOp K V)) :
    ((lru_cache.init (K := K) (V := V) limit).run t).dict.length
      = ((lru_cache.init (K := K) (V := V) limit).run t).cache.length ∧
    ((lru_cache.init (K := K) (V := V) limit).run t).cache.length ≤ limit ∧
    ((lru_cache.init (K := K) (V := V) limit).run t).cache.length
      = min limit (insKeys t).toFinset.card ∧
    (∀ op : LOp K V,
      ((lru_cache.init (K := K) (V := V) limit).run t).cache.length
        ≤ (((lru_cache.init (K := K) (V := V) limit).run t).step op).cache.length) ∧
    (limit ≤ (insKeys t).toFinset.card →
      ((lru_cache.init (K := K) (V := V) limit).run t).cache.length = limit) := by
  have hInv := lru_cache.run_Inv (lru_cache.init_Inv (K := K) (V := V) limit) t
  have hlimit := lru_cache.run_limit (lru_cache.init (K := K) (V := V) limit) t
  have hmain := run_size_aux t (lru_cache.init (K := K) (V := V) limit) ∅
    (lru_cache.init_Inv limit) hl (by simp [lru_cache.init])
    (by simp [lru_cache.init]) (by simp [lru_cache.init])
  rw [Finset.empty_union] at hmain
  have hle : ((lru_cache.init (K := K) (V := V) limit).run t).cache.length
      ≤ limit := by
    have h5 := hInv.2.2.2.2
    rw [hlimit] at h5
    exact h5
  refine ⟨hInv.size_eq, hle, hmain, ?_, ?_⟩
  · intro op
    exact lru_cache.step_size_mono _ op
  · intro hge
    rw [hmain]
    exact min_eq_left hge

/-! ## Claim C5: forEach order matches the access history -/

theorem stampOf_setStamp_self (stamps : List (K × Nat)) (k : K) (c : Nat) :
    stampOf (setStamp stamps k c) k = c := by
  simp [setStamp, stampOf, findValue]

theorem stampOf_setStamp_ne {stamps : List (K × Nat)} {a k : K} (h : a ≠ k)
    (c : Nat) : stampOf (setStamp stamps k c) a = stampOf stamps a := by
  have hka : ¬ ((k, c) : K × Nat).1 = a := fun hk => h hk.symm
  simp only [setStamp, stampOf, findValue, if_neg hka]
  rw [findValue_removeKey_ne h]

theorem stampOf_removeKey_ne {stamps : List (K × Nat)} {a k : K} (h : a ≠ k) :
    stampOf (removeKey stamps k) a = stampOf stamps a := by
  simp only [stampOf, findValue_removeKey_ne h]

theorem stampOf_lt {stamps : List (K × Nat)} {a : K} {c : Nat}
    (hmem : a ∈ stamps.map Prod.fst) (hb : ∀ p ∈ stamps, p.2 < c) :
    stampOf stamps a < c := by
  obtain ⟨v, hv⟩ := Option.isSome_iff_exists.mp (findValue_isSome_of_mem hmem)
  have hlt := hb (a, v) (findValue_mem hv)
  simp only [stampOf, hv, Option.getD_some]
  exact hlt

theorem mem_map_fst_setStamp {stamps : List (K × Nat)} {a k : K} (c : Nat)
    (h : a ∈ stamps.map Prod.fst) : a ∈ (setStamp stamps k c).map Prod.fst := by
  by_cases he : a = k
  · subst he
    simp [setStamp]
  · simp only [setStamp, List.map_cons, List.mem_cons]
    exact Or.inr ((mem_map_fst_removeKey he).mpr h)

theorem mem_map_fst_setStamp_self (stamps : List (K × Nat)) (k : K) (c : Nat) :
    k ∈ (setStamp stamps k c).map Prod.fst := by
  simp [setStamp]

theorem nodup_map_fst_setStamp {stamps : List (K × Nat)} {k : K} (c : Nat)
    (h : (stamps.map Prod.fst).Nodup) :
    ((setStamp stamps k c).map Prod.fst).Nodup := by
  simp only [setStamp, List.map_cons]
  exact List.nodup_cons.mpr ⟨not_mem_map_fst_removeKey h, nodup_map_fst_removeKey h⟩

theorem setStamp_mem {stamps : List (K × Nat)} {k : K} {c : Nat} {p : K × Nat}
    (h : p ∈ setStamp stamps k c) : p = (k, c) ∨ p ∈ stamps := by
  rcases List.mem_cons.mp h with h1 | h2
  · exact Or.inl h1
  · exact Or.inr ((removeKey_sublist stamps k).subset h2)

theorem setStamp_bound {stamps2 base : List (K × Nat)} {clock : Nat}
    (hsub : ∀ p ∈ stamps2, p ∈ base)
    (hb : ∀ p ∈ base, p.2 < clock) (k : K) :
    ∀ p ∈ setStamp stamps2 k clock, p.2 < clock + 1 := by
  intro p hp2
  rcases setStamp_mem hp2 with rfl | hm
  · exact Nat.lt_succ_self _
  · exact Nat.lt_succ_of_lt (hb p (hsub p hm))

/-- Appending a freshly stamped key behind surviving keys keeps the keys
sorted by stamp. -/
theorem pairwise_touch {stamps st2 : List (K × Nat)} {clock : Nat}
    {ks : List K} {k : K}
    (hb : ∀ p ∈ stamps, p.2 < clock)
    (hks : ∀ a ∈ ks, a ∈ stamps.map Prod.fst)
    (hp : ks.Pairwise fun a b => stampOf stamps a < stampOf stamps b)
    (heq : ∀ a ∈ ks, stampOf st2 a = stampOf stamps a)
    (hsk : stampOf st2 k = clock) :
    (ks ++ [k]).Pairwise fun a b => stampOf st2 a < stampOf st2 b := by
  rw [List.pairwise_append]
  refine ⟨?_, List.pairwise_singleton _ _, ?_⟩
  · exact hp.imp_of_mem fun {a b} ha hb2 hr => by
      rw [heq a ha, heq b hb2]
      exact hr
  · intro a ha b hb2
    simp only [List.mem_singleton] at hb2
    subst hb2
    rw [heq a ha, hsk]
    exact stampOf_lt (hks a ha) hb

/-- The common shape of every transition that moves one key to the back of
the recency list and stamps it with the current clock. -/
theorem SInv_touch {s2 : lru_cache K V} {skeys : List K}
    {stamps : List (K × Nat)} {clock : Nat} {st2 : List (K × Nat)}
    (ks2 : List K) (k : K)
    (hInv2 : s2.Inv)
    (hnd : (stamps.map Prod.fst).Nodup)
    (hks : ∀ a ∈ skeys, a ∈ stamps.map Prod.fst)
    (hb : ∀ p ∈ stamps, p.2 < clock)
    (hp : skeys.Pairwise fun a b => stampOf stamps a < stampOf stamps b)
    (hkeys2 : s2.keys = ks2 ++ [k])
    (hsl : List.Sublist ks2 skeys)
    (hnd2 : (st2.map Prod.fst).Nodup)
    (hmem2 : ∀ a ∈ ks2, a ∈ st2.map Prod.fst)
    (hkmem2 : k ∈ st2.map Prod.fst)
    (hb2 : ∀ p ∈ st2, p.2 < clock + 1)
    (heq : ∀ a ∈ ks2, stampOf st2 a = stampOf stamps a)
    (hsk : stampOf st2 k = clock) :
    SInv ⟨s2, st2, clock + 1⟩ := by
  refine ⟨hInv2, hnd2, ?_, hb2, ?_⟩
  · intro a ha
    rw [hkeys2] at ha
    rcases List.mem_append.mp ha with hL | hR
    · exact hmem2 a hL
    · simp only [List.mem_singleton] at hR
      subst hR
      exact hkmem2
  · show s2.keys.Pairwise _
    rw [hkeys2]
    exact pairwise_touch hb (fun a ha => hks a (hsl.subset ha))
      (List.Pairwise.sublist hsl hp) heq hsk

/-- The instrumented invariant is preserved by one insert call. -/
theorem SInv_insert {s : lru_cache K V} {stamps : List (K × Nat)} {clock : Nat}
    (hInv : s.Inv) (hnd : (stamps.map Prod.fst).Nodup)
    (hks : ∀ a ∈ s.keys, a ∈ stamps.map Prod.fst)
    (hb : ∀ p ∈ stamps, p.2 < clock)
    (hp : s.keys.Pairwise fun a b => stampOf stamps a < stampOf stamps b)
    (k : K) (v : V) (u : Bool) :
    SInv ⟨(s.insert k v u).2, stampsStep s stamps clock (LOp.ins k v u),
      clock + 1⟩ := by
  by_cases hd : k ∈ s.dict
  · obtain ⟨v0, hv0⟩ :=
      Option.isSome_iff_exists.mp (findValue_isSome_of_mem (hInv.2.2.1 k hd))
    have hst : stampsStep s stamps clock (LOp.ins k v u)
        = setStamp stamps k clock := by
      simp [stampsStep, hd]
    rw [hst, lru_cache.insert_hit hd hv0]
    have hknotrem : k ∉ (removeKey s.cache k).map Prod.fst :=
      not_mem_map_fst_removeKey hInv.2.1
    refine SInv_touch ((removeKey s.cache k).map Prod.fst) k
      ?_ hnd hks hb hp ?_ ?_ ?_ ?_ ?_ ?_ ?_ ?_
    · have hi := lru_cache.insert_Inv hInv k v u
      rw [lru_cache.insert_hit hd hv0] at hi
      exact hi
    · show ({ s with cache := removeKey s.cache k ++ [(k, if u then v else v0)] }
          : lru_cache K V).keys = (removeKey s.cache k).map Prod.fst ++ [k]
      simp [lru_cache.keys]
    · exact (removeKey_sublist s.cache k).map Prod.fst
    · exact nodup_map_fst_setStamp _ hnd
    · intro a ha
      exact mem_map_fst_setStamp _
        (hks a (((removeKey_sublist s.cache k).map Prod.fst).subset ha))
    · exact mem_map_fst_setStamp_self _ _ _
    · exact setStamp_bound (fun p hp2 => hp2) hb k
    · intro a ha
      exact stampOf_setStamp_ne (fun he => by subst he; exact hknotrem ha) clock
    · exact stampOf_setStamp_self _ _ _
  · by_cases hlim : s.dict.length ≠ s.limit
    · have hst : stampsStep s stamps clock (LOp.ins k v u)
          = setStamp stamps k clock := by
        simp [stampsStep, hd, hlim]
      rw [hst, lru_cache.insert_app hd hlim]
      have hknk : k ∉ s.cache.map Prod.fst := fun hm => hd (hInv.2.2.2.1 k hm)
      refine SInv_touch (s.cache.map Prod.fst) k
        ?_ hnd hks hb hp ?_ ?_ ?_ ?_ ?_ ?_ ?_ ?_
      · have hi := lru_cache.insert_Inv hInv k v u
        rw [lru_cache.insert_app hd hlim] at hi
        exact hi
      · show ({ s with dict := k :: s.dict, cache := s.cache ++ [(k, v)] }
            : lru_cache K V).keys = s.cache.map Prod.fst ++ [k]
        simp [lru_cache.keys]
      · exact List.Sublist.refl _
      · exact nodup_map_fst_setStamp _ hnd
      · intro a ha
        exact mem_map_fst_setStamp _ (hks a ha)
      · exact mem_map_fst_setStamp_self _ _ _
      · exact setStamp_bound (fun p hp2 => hp2) hb k
      · intro a ha
        exact stampOf_setStamp_ne (fun he => hknk (by rw [← he]; exact ha)) clock
      · exact stampOf_setStamp_self _ _ _
    · push_neg at hlim
      cases hc : s.cache with
      | nil =>
          have hstate : (s.insert k v u).2 = s :=
            congrArg Prod.snd (lru_cache.insert_evict_nil hd hlim hc (v := v) (u := u))
          have hst : stampsStep s stamps clock (LOp.ins k v u) = stamps := by
            simp [stampsStep, hd, hlim, hc]
          rw [hstate, hst]
          exact ⟨hInv, hnd, hks, fun p hp2 => Nat.lt_succ_of_lt (hb p hp2), hp⟩
      | cons front rest =>
          have hst : stampsStep s stamps clock (LOp.ins k v u)
              = setStamp (removeKey stamps front.1) k clock := by
            simp [stampsStep, hd, hlim, hc]
          rw [hst, lru_cache.insert_evict hd hlim hc]
          have hkeysc : s.keys = front.1 :: rest.map Prod.fst := by
            simp [lru_cache.keys, hc]
          have hf1 : front.1 ∉ rest.map Prod.fst := by
            have hn := hInv.2.1
            rw [hkeysc] at hn
            exact (List.nodup_cons.mp hn).1
          have hknk : k ∉ s.keys := fun hm => hd (hInv.2.2.2.1 k hm)
          refine SInv_touch (rest.map Prod.fst) k
            ?_ hnd hks hb hp ?_ ?_ ?_ ?_ ?_ ?_ ?_ ?_
          · have hi := lru_cache.insert_Inv hInv k v u
            rw [lru_cache.insert_evict hd hlim hc] at hi
            exact hi
          · show ({ s with dict := k :: eraseKey s.dict front.1, cache := rest ++ [(k, v)] } : lru_cache K V).keys = rest.map Prod.fst ++ [k]
            simp [lru_cache.keys]
          · rw [hkeysc]
            exact List.sublist_cons_self _ _
          · exact nodup_map_fst_setStamp _ (nodup_map_fst_removeKey hnd)
          · intro a ha
            have hanef : a ≠ front.1 := fun he => (he ▸ hf1) ha
            have hamem : a ∈ stamps.map Prod.fst := hks a (by
              rw [hkeysc]
              exact List.mem_cons_of_mem _ ha)
            exact mem_map_fst_setStamp _ ((mem_map_fst_removeKey hanef).mpr hamem)
          · exact mem_map_fst_setStamp_self _ _ _
          · exact setStamp_bound
              (fun p hp2 => (removeKey_sublist stamps front.1).subset hp2) hb k
          · intro a ha
            have hanef : a ≠ front.1 := fun he => (he ▸ hf1) ha
            have hanek : a ≠ k := fun he => hknk (by
              rw [hkeysc]
              exact List.mem_cons_of_mem _ (he ▸ ha))
            rw [stampOf_setStamp_ne hanek, stampOf_removeKey_ne hanef]
          · exact stampOf_setStamp_self _ _ _

theorem sstep_SInv {σ : SState K V} (h : SInv σ) (op : LOp K V) :
    SInv (sstep σ op) := by
  obtain ⟨s, stamps, clock⟩ := σ
  obtain ⟨hInv, hnd, hks, hb, hp⟩ := h
  have hb1 : ∀ p ∈ stamps, p.2 < clock + 1 := fun p hp2 => Nat.lt_succ_of_lt (hb p hp2)
  cases op with
  | ins k v u => exact SInv_insert hInv hnd hks hb hp k v u
  | getOrIns k v => exact SInv_insert hInv hnd hks hb hp k v false
  | get k =>
      by_cases hd : k ∈ s.dict
      · obtain ⟨v0, hv0⟩ :=
          Option.isSome_iff_exists.mp (findValue_isSome_of_mem (hInv.2.2.1 k hd))
        have hstep : s.step (LOp.get k)
            = { s with cache := removeKey s.cache k ++ [(k, v0)] } := by
          show (s.get k).2 = _
          rw [lru_cache.get_hit hd hv0]
        have hst : stampsStep s stamps clock (LOp.get k)
            = setStamp stamps k clock := by
          simp [stampsStep, hd]
        show SInv ⟨s.step (LOp.get k), stampsStep s stamps clock (LOp.get k),
          clock + 1⟩
        rw [hstep, hst]
        have hknotrem : k ∉ (removeKey s.cache k).map Prod.fst :=
          not_mem_map_fst_removeKey hInv.2.1
        refine SInv_touch ((removeKey s.cache k).map Prod.fst) k
          ?_ hnd hks hb hp ?_ ?_ ?_ ?_ ?_ ?_ ?_ ?_
        · have hi := lru_cache.get_Inv hInv k
          rw [lru_cache.get_hit hd hv0] at hi
          exact hi
        · show ({ s with cache := removeKey s.cache k ++ [(k, v0)] }
              : lru_cache K V).keys = (removeKey s.cache k).map Prod.fst ++ [k]
          simp [lru_cache.keys]
        · exact (removeKey_sublist s.cache k).map Prod.fst
        · exact nodup_map_fst_setStamp _ hnd
        · intro a ha
          exact mem_map_fst_setStamp _
            (hks a (((removeKey_sublist s.cache k).map Prod.fst).subset ha))
        · exact mem_map_fst_setStamp_self _ _ _
        · exact setStamp_bound (fun p hp2 => hp2) hb k
        · intro a ha
          exact stampOf_setStamp_ne (fun he => by subst he; exact hknotrem ha) clock
        · exact stampOf_setStamp_self _ _ _
      · have hstep : s.step (LOp.get k) = s := by
          show (s.get k).2 = s
          rw [lru_cache.get_miss hd]
        have hst : stampsStep s stamps clock (LOp.get k) = stamps := by
          simp [stampsStep, hd]
        show SInv ⟨s.step (LOp.get k), stampsStep s stamps clock (LOp.get k),
          clock + 1⟩
        rw [hstep, hst]
        exact ⟨hInv, hnd, hks, hb1, hp⟩
  | peek k =>
      have hstep : s.step (LOp.peek k) = s := lru_cache.peek_state s k
      show SInv ⟨s.step (LOp.peek k), stamps, clock + 1⟩
      rw [hstep]
      exact ⟨hInv, hnd, hks, hb1, hp⟩
  | each => exact ⟨hInv, hnd, hks, hb1, hp⟩

theorem srun_SInv {σ : SState K V} (h : SInv σ) (t : List (LOp K V)) :
    SInv (srun σ t) := by
  induction t generalizing σ with
  | nil => exact h
  | cons op t ih => exact ih (sstep_SInv h op)

theorem sinit_SInv (limit : Nat) : SInv (sinit (K := K) (V := V) limit) := by
  refine ⟨lru_cache.init_Inv limit, ?_, ?_, ?_, ?_⟩
  · simp [sinit]
  · intro a ha
    simp [sinit, lru_cache.init, lru_cache.keys] at ha
  · intro p hp2
    simp [sinit] at hp2
  · simp [sinit, lru_cache.init, lru_cache.keys]

theorem srun_st (σ : SState K V) (t : List (LOp K V)) :
    (srun σ t).st = σ.st.run t := by
  induction t generalizing σ with
  | nil => rfl
  | cons op t ih => exact ih (sstep σ op)

/-- C5: after any operation sequence from a fresh cache, forEach passes
fn exactly the cached entries, in recency-list order, and the state after
the loop is the state before it; each present key is visited exactly once
(the visited keys are exactly the dict keys, with no duplicates); and the
visit order is strictly increasing in the last-successful-access stamps
the instrumented run records from the history of get and insert calls. -/
theorem claim_C5 (limit : Nat) (t : List (LOp K V)) :
    ((srun (sinit (K := K) (V := V) limit) t).st
      = (lru_cache.init (K := K) (V := V) limit).run t) ∧
    ((srun (sinit (K := K) (V := V) limit) t).st.forEach.1
      = (srun (sinit (K := K) (V := V) limit) t).st.cache) ∧
    ((srun (sinit (K := K) (V := V) limit) t).st.forEach.2
      = (srun (sinit (K := K) (V := V) limit) t).st) ∧
    ((srun (sinit (K := K) (V := V) limit) t).st.keys).Nodup ∧
    (∀ k, k ∈ (srun (sinit (K := K) (V := V) limit) t).st.dict
      ↔ k ∈ ((srun (sinit (K := K) (V := V) limit) t).st.forEach.1).map Prod.fst) ∧
    ((srun (sinit (K := K) (V := V) limit) t).st.keys).Pairwise
      (fun a b => stampOf (srun (sinit (K := K) (V := V) limit) t).stamps a
        < stampOf (srun (sinit (K := K) (V := V) limit) t).stamps b) := by
  have hS := srun_SInv (sinit_SInv (K := K) (V := V) limit) t
  exact ⟨srun_st _ t, rfl, rfl, hS.1.2.1,
    fun k => ⟨fun hk => hS.1.2.2.1 k hk, fun hk => hS.1.2.2.2.1 k hk⟩,
    hS.2.2.2.2⟩

/-! ## Allocator lemmas -/

theorem findValue_cons_ne {e : K × V} {es : List (K × V)} {k : K}
    (h : ¬ e.1 = k) : findValue (e :: es) k = findValue es k := by
  simp [findValue, h]

theorem pool_allocator.allocate_ne_one {s : pool_allocator} {n : Nat}
    (h : n ≠ 1) : s.allocate n
      = (APtr.heap s.nextHeapId, { s with nextHeapId := s.nextHeapId + 1 }) := by
  simp [pool_allocator.allocate, h]

theorem pool_allocator.allocate_pop {s : pool_allocator}
    (hu : s.useFreeList = true) {f : Nat × Nat} {rest : List (Nat × Nat)}
    (hf : s.freeList = f :: rest) :
    s.allocate 1 = (APtr.slot f.1 f.2, { s with freeList := rest }) := by
  simp [pool_allocator.allocate, hu, hf]

theorem pool_allocator.allocate_blocks {s : pool_allocator}
    (h : s.useFreeList = false ∨ s.freeList = []) :
    s.allocate 1 = s.allocFromBlocks := by
  rcases h with hu | hf
  · cases hfl : s.freeList <;> simp [pool_allocator.allocate, hu, hfl]
  · cases hu2 : s.useFreeList <;> simp [pool_allocator.allocate, hu2, hf]

theorem pool_allocator.allocFromBlocks_first {s : pool_allocator}
    (hi : s.index = s.currBlockSize) (hp : s.pool = []) :
    s.allocFromBlocks = (APtr.slot s.nextBlockId 0,
      { s with pool := [(s.nextBlockId, s.currBlockSize)], index := 1,
               nextBlockId := s.nextBlockId + 1 }) := by
  simp [pool_allocator.allocFromBlocks, hi, hp]

theorem pool_allocator.allocFromBlocks_next {s : pool_allocator}
    (hi : s.index = s.currBlockSize) {b : Nat × Nat} {bs : List (Nat × Nat)}
    (hp : s.pool = b :: bs) :
    s.allocFromBlocks = (APtr.slot s.nextBlockId 0,
      { s with pool := (s.nextBlockId, s.blockSize) :: b :: bs,
               currBlockSize := s.blockSize, index := 1,
               nextBlockId := s.nextBlockId + 1 }) := by
  simp [pool_allocator.allocFromBlocks, hi, hp]

theorem pool_allocator.allocFromBlocks_cursor {s : pool_allocator}
    (hi : s.index ≠ s.currBlockSize) :
    s.allocFromBlocks = (APtr.slot (headId s.pool) s.index,
      { s with index := s.index + 1 }) := by
  simp [pool_allocator.allocFromBlocks, hi]

theorem pool_allocator.allocate_one_cases (s : pool_allocator) :
    (∃ f rest, s.useFreeList = true ∧ s.freeList = f :: rest ∧
      s.allocate 1 = (APtr.slot f.1 f.2, { s with freeList := rest })) ∨
    ((s.useFreeList = false ∨ s.freeList = []) ∧
      s.allocate 1 = s.allocFromBlocks) := by
  by_cases hfl : s.useFreeList = true ∧ s.freeList ≠ []
  · obtain ⟨hu, hne⟩ := hfl
    obtain ⟨f, rest, hf⟩ := List.exists_cons_of_ne_nil hne
    exact Or.inl ⟨f, rest, hu, hf, pool_allocator.allocate_pop hu hf⟩
  · have hor : s.useFreeList = false ∨ s.freeList = [] := by
      cases hub : s.useFreeList with
      | false => exact Or.inl rfl
      | true =>
          right
          by_contra hne
          exact hfl ⟨hub, hne⟩
    exact Or.inr ⟨hor, pool_allocator.allocate_blocks hor⟩

theorem pool_allocator.deallocate_slot {s : pool_allocator}
    (hu : s.useFreeList = true) (b i : Nat) :
    s.deallocate (APtr.slot b i) 1
      = { s with freeList := (b, i) :: s.freeList } := by
  simp [pool_allocator.deallocate, hu]

theorem pool_allocator.deallocate_false {s : pool_allocator}
    (hu : s.useFreeList = false) (p : APtr) (n : Nat) : s.deallocate p n = s := by
  by_cases hn : n ≠ 1
  · simp [pool_allocator.deallocate, hn]
  · push_neg at hn
    subst hn
    simp [pool_allocator.deallocate, hu]

theorem pool_allocator.deallocate_pool (s : pool_allocator) (p : APtr) (n : Nat) :
    (s.deallocate p n).pool = s.pool := by
  by_cases hn : n ≠ 1
  · simp [pool_allocator.deallocate, hn]
  · push_neg at hn
    subst hn
    cases hu : s.useFreeList <;> cases p <;> simp [pool_allocator.deallocate, hu]

/-! ## Claim C6: the decision steps of allocate(1) -/

/-- C6: allocate(1) first pops the free list when it is in use and
nonempty; otherwise, while the cursor has not reached the current block
size, it hands out the cursor slot of the newest block and advances the
cursor; otherwise it creates a new block - sized currBlockSize (the
constructor argument, as the last conjunct shows for every reachable
state) when it is the very first block, and sized BlockSize for every
later block - links it ahead of the chain, resets the cursor, and hands
out slot 0 of the new block. -/
theorem claim_C6 :
    (∀ (s : pool_allocator) (f : Nat × Nat) (rest : List (Nat × Nat)),
      s.useFreeList = true → s.freeList = f :: rest →
      s.allocate 1 = (APtr.slot f.1 f.2, { s with freeList := rest })) ∧
    (∀ s : pool_allocator, (s.useFreeList = false ∨ s.freeList = []) →
      s.index ≠ s.currBlockSize →
      s.allocate 1 = (APtr.slot (headId s.pool) s.index,
        { s with index := s.index + 1 })) ∧
    (∀ s : pool_allocator, (s.useFreeList = false ∨ s.freeList = []) →
      s.index = s.currBlockSize → s.pool = [] →
      s.allocate 1 = (APtr.slot s.nextBlockId 0,
        { s with pool := [(s.nextBlockId, s.currBlockSize)], index := 1,
                 nextBlockId := s.nextBlockId + 1 })) ∧
    (∀ (s : pool_allocator) (b : Nat × Nat) (bs : List (Nat × Nat)),
      (s.useFreeList = false ∨ s.freeList = []) →
      s.index = s.currBlockSize → s.pool = b :: bs →
      s.allocate 1 = (APtr.slot s.nextBlockId 0,
        { s with pool := (s.nextBlockId, s.blockSize) :: b :: bs,
                 currBlockSize := s.blockSize, index := 1,
                 nextBlockId := s.nextBlockId + 1 })) ∧
    (∀ (ufl : Bool) (bs r : Nat) (t : List AOp),
      (arun (pool_allocator.init ufl bs r, []) t).1.pool = [] →
      (arun (pool_allocator.init ufl bs r, []) t).1.currBlockSize = r) := by
  refine ⟨?_, ?_, ?_, ?_, ?_⟩
  · intro s f rest hu hf
    exact pool_allocator.allocate_pop hu hf
  · intro s h hi
    rw [pool_allocator.allocate_blocks h, pool_allocator.allocFromBlocks_cursor hi]
  · intro s h hi hp
    rw [pool_allocator.allocate_blocks h,
      pool_allocator.allocFromBlocks_first hi hp]
  · intro s b bs h hi hp
    rw [pool_allocator.allocate_blocks h,
      pool_allocator.allocFromBlocks_next hi hp]
  · intro ufl bs r t
    suffices hgen : ∀ (t2 : List AOp) (x : pool_allocator × List APtr),
        (x.1.pool = [] → x.1.currBlockSize = r) →
        ((arun x t2).1.pool = [] → (arun x t2).1.currBlockSize = r) by
      exact hgen t _ (fun _ => rfl)
    intro t2
    induction t2 with
    | nil => intro x hx; exact hx
    | cons op t2 ih =>
        intro x hx
        refine ih (astep x op) ?_
        obtain ⟨s, log⟩ := x
        cases op with
        | alloc n =>
            show ((s.allocate n).2.pool = [] → (s.allocate n).2.currBlockSize = r)
            by_cases hn : n ≠ 1
            · rw [pool_allocator.allocate_ne_one hn]
              exact hx
            · push_neg at hn
              subst hn
              rcases pool_allocator.allocate_one_cases s with
                ⟨f, rest, hu, hf, heq⟩ | ⟨hor, heq⟩
              · rw [heq]
                exact hx
              · rw [heq]
                by_cases hi : s.index = s.currBlockSize
                · cases hp : s.pool with
                  | nil =>
                      rw [pool_allocator.allocFromBlocks_first hi hp]
                      intro hcontra
                      simp at hcontra
                  | cons b bs2 =>
                      rw [pool_allocator.allocFromBlocks_next hi hp]
                      intro hcontra
                      simp at hcontra
                · rw [pool_allocator.allocFromBlocks_cursor hi]
                  exact hx
        | dealloc p n =>
            show ((s.deallocate p n).pool = [] → (s.deallocate p n).currBlockSize = r)
            have hpool := pool_allocator.deallocate_pool s p n
            have hcbs : (s.deallocate p n).currBlockSize = s.currBlockSize := by
              by_cases hn : n ≠ 1
              · simp [pool_allocator.deallocate, hn]
              · push_neg at hn
                subst hn
                cases hu : s.useFreeList <;> cases p <;>
                  simp [pool_allocator.deallocate, hu]
            rw [hpool, hcbs]
            exact hx

/-! ## Claim C7: deallocate feeds the free list and no block is released -/

/-- C7: deallocate(ptr, 1) on a free-list allocator pushes the slot onto
the free list (a subsequent allocate(1) returns exactly that slot) and
releases nothing: the block chain and the cursor are untouched; no
allocate or deallocate call (of any count) ever removes a block from the
chain; only the destructor releases the blocks, and then all of them. -/
theorem claim_C7 :
    (∀ (s : pool_allocator) (b i : Nat), s.useFreeList = true →
      s.deallocate (APtr.slot b i) 1
        = { s with freeList := (b, i) :: s.freeList } ∧
      ((s.deallocate (APtr.slot b i) 1).allocate 1).1 = APtr.slot b i) ∧
    (∀ (s : pool_allocator) (p : APtr), (s.deallocate p 1).pool = s.pool ∧
      (s.deallocate p 1).index = s.index ∧
      (s.deallocate p 1).currBlockSize = s.currBlockSize) ∧
    (∀ (s : pool_allocator) (p : APtr) (n : Nat),
      (s.deallocate p n).pool = s.pool) ∧
    (∀ (s : pool_allocator) (n : Nat),
      List.IsSuffix s.pool ((s.allocate n).2.pool)) ∧
    (∀ s : pool_allocator, s.destroy.pool = []) := by
  refine ⟨?_, ?_, ?_, ?_, ?_⟩
  · intro s b i hu
    refine ⟨pool_allocator.deallocate_slot hu b i, ?_⟩
    rw [pool_allocator.deallocate_slot hu b i,
      pool_allocator.allocate_pop (s := { s with freeList := (b, i) :: s.freeList }) hu rfl]
  · intro s p
    cases hu : s.useFreeList <;> cases p <;>
      simp [pool_allocator.deallocate, hu]
  · intro s p n
    exact pool_allocator.deallocate_pool s p n
  · intro s n
    by_cases hn : n ≠ 1
    · rw [pool_allocator.allocate_ne_one hn]
    · push_neg at hn
      subst hn
      rcases pool_allocator.allocate_one_cases s with
        ⟨f, rest, hu, hf, heq⟩ | ⟨hor, heq⟩
      · rw [heq]
      · rw [heq]
        by_cases hi : s.index = s.currBlockSize
        · cases hp : s.pool with
          | nil =>
              rw [pool_allocator.allocFromBlocks_first hi hp]
              exact ⟨[(s.nextBlockId, s.currBlockSize)], by simp⟩
          | cons b bs =>
              rw [pool_allocator.allocFromBlocks_next hi hp]
              exact ⟨[(s.nextBlockId, s.blockSize)], rfl⟩
        · rw [pool_allocator.allocFromBlocks_cursor hi]
  · intro s
    rfl

/-! ## Claim C9: the cache uses allocators without free lists -/

theorem astep_FreshInv {x : pool_allocator × List APtr} (h : FreshInv x.1 x.2)
    (op : AOp) : FreshInv (astep x op).1 (astep x op).2 := by
  obtain ⟨s, log⟩ := x
  obtain ⟨hu, hnd, hpe, hpid, hlog⟩ := h
  cases op with
  | dealloc p n =>
      show FreshInv (s.deallocate p n) log
      rw [pool_allocator.deallocate_false hu p n]
      exact ⟨hu, hnd, hpe, hpid, hlog⟩
  | alloc n =>
      show FreshInv (s.allocate n).2 (log ++ [(s.allocate n).1])
      by_cases hn : n ≠ 1
      · rw [pool_allocator.allocate_ne_one hn]
        refine ⟨hu, ?_, hpe, hpid, ?_⟩
        · rw [List.nodup_append]
          refine ⟨hnd, List.nodup_singleton _, ?_⟩
          intro q hq hq2
          simp only [List.mem_singleton] at hq2
          subst hq2
          exact Nat.lt_irrefl _ (hlog _ hq)
        · intro q hq
          rcases List.mem_append.mp hq with hq | hq
          · have h3 := hlog q hq
            cases q with
            | slot b i => exact h3
            | heap h2 => exact Nat.lt_succ_of_lt h3
          · simp only [List.mem_singleton] at hq
            subst hq
            exact Nat.lt_succ_self _
      · push_neg at hn
        subst hn
        rcases pool_allocator.allocate_one_cases s with
          ⟨f, rest, hu2, hf, heq⟩ | ⟨hor, heq⟩
        · rw [hu] at hu2
          exact absurd hu2 (by decide)
        · rw [heq]
          by_cases hi : s.index = s.currBlockSize
          · cases hp : s.pool with
            | nil =>
                rw [pool_allocator.allocFromBlocks_first hi hp]
                have hnoslot : ∀ q ∈ log, ∀ b i, q ≠ APtr.slot b i := by
                  intro q hq b i hqe
                  subst hqe
                  exact (hlog _ hq).1 hp
                refine ⟨hu, ?_, ?_, ?_, ?_⟩
                · rw [List.nodup_append]
                  refine ⟨hnd, List.nodup_singleton _, ?_⟩
                  intro q hq hq2
                  simp only [List.mem_singleton] at hq2
                  subst hq2
                  exact hnoslot _ hq _ _ rfl
                · intro hcontra
                  simp at hcontra
                · intro p hp2
                  simp only [List.mem_singleton] at hp2
                  subst hp2
                  exact Nat.lt_succ_self _
                · intro q hq
                  rcases List.mem_append.mp hq with hq | hq
                  · cases q with
                    | slot b i => exact absurd rfl (hnoslot _ hq b i)
                    | heap h2 => exact hlog _ hq
                  · simp only [List.mem_singleton] at hq
                    subst hq
                    exact ⟨by simp, Nat.lt_succ_self _, fun _ => Nat.one_pos⟩
            | cons b0 bs =>
                rw [pool_allocator.allocFromBlocks_next hi hp]
                refine ⟨hu, ?_, ?_, ?_, ?_⟩
                · rw [List.nodup_append]
                  refine ⟨hnd, List.nodup_singleton _, ?_⟩
                  intro q hq hq2
                  simp only [List.mem_singleton] at hq2
                  subst hq2
                  exact Nat.lt_irrefl _ (hlog _ hq).2.1
                · intro hcontra
                  simp at hcontra
                · intro p hp2
                  rcases List.mem_cons.mp hp2 with rfl | hp3
                  · exact Nat.lt_succ_self _
                  · have hmem : p ∈ s.pool := by
                      rw [hp]
                      exact hp3
                    exact Nat.lt_succ_of_lt (hpid p hmem)
                · intro q hq
                  rcases List.mem_append.mp hq with hq | hq
                  · have h3 := hlog _ hq
                    cases q with
                    | heap h2 => exact h3
                    | slot b i =>
                        refine ⟨by simp, Nat.lt_succ_of_lt h3.2.1, ?_⟩
                        intro hbh
                        exfalso
                        have hblt : b < s.nextBlockId := h3.2.1
                        have hbh2 : b = s.nextBlockId := hbh
                        omega
                  · simp only [List.mem_singleton] at hq
                    subst hq
                    exact ⟨by simp, Nat.lt_succ_self _, fun _ => Nat.one_pos⟩
          · rw [pool_allocator.allocFromBlocks_cursor hi]
            have hpne : s.pool ≠ [] := fun hnil => hi (hpe hnil)
            have hhead : headId s.pool < s.nextBlockId := by
              obtain ⟨b0, bs, hp0⟩ := List.exists_cons_of_ne_nil hpne
              have hb0 : b0 ∈ s.pool := by
                rw [hp0]
                exact List.mem_cons_self _ _
              have h4 := hpid b0 hb0
              rw [hp0]
              exact h4
            refine ⟨hu, ?_, ?_, hpid, ?_⟩
            · rw [List.nodup_append]
              refine ⟨hnd, List.nodup_singleton _, ?_⟩
              intro q hq hq2
              simp only [List.mem_singleton] at hq2
              subst hq2
              exact Nat.lt_irrefl _ ((hlog _ hq).2.2 rfl)
            · intro hcontra
              exact absurd hcontra hpne
            · intro q hq
              rcases List.mem_append.mp hq with hq | hq
              · have h3 := hlog _ hq
                cases q with
                | heap h2 => exact h3
                | slot b i =>
                    exact ⟨h3.1, h3.2.1, fun hb => Nat.lt_succ_of_lt (h3.2.2 hb)⟩
              · simp only [List.mem_singleton] at hq
                subst hq
                exact ⟨hpne, hhead, fun _ => Nat.lt_succ_self _⟩

theorem arun_FreshInv {x : pool_allocator × List APtr} (h : FreshInv x.1 x.2)
    (t : List AOp) : FreshInv (arun x t).1 (arun x t).2 := by
  induction t generalizing x with
  | nil => exact h
  | cons op t ih => exact ih (astep_FreshInv h op)

/-- C9: the cache instantiates both of its pool allocators with
UseFreeList = false (lru_cache.hpp lines 27 and 31); for such an
allocator, deallocate(ptr, 1) leaves the whole allocator state unchanged,
and along any sequence of allocator calls no pointer - in particular no
slot released by the cache's containers - is ever returned twice by
allocate. -/
theorem claim_C9 :
    lru_cache.ListAllocUseFreeList = false ∧
    lru_cache.MapAllocUseFreeList = false ∧
    (∀ (bs r : Nat) (t : List AOp),
      (∀ p : APtr,
        ((arun (pool_allocator.init lru_cache.ListAllocUseFreeList bs r, [])
          t).1.deallocate p 1)
          = (arun (pool_allocator.init lru_cache.ListAllocUseFreeList bs r, [])
            t).1) ∧
      ((arun (pool_allocator.init lru_cache.ListAllocUseFreeList bs r, [])
        t).2).Nodup) := by
  refine ⟨rfl, rfl, ?_⟩
  intro bs r t
  have hfresh : FreshInv
      (pool_allocator.init lru_cache.ListAllocUseFreeList bs r) [] := by
    refine ⟨rfl, List.nodup_nil, fun _ => rfl, ?_, ?_⟩
    · intro p hp2
      simp [pool_allocator.init] at hp2
    · intro q hq
      simp at hq
  have h := arun_FreshInv
    (x := (pool_allocator.init lru_cache.ListAllocUseFreeList bs r, [])) hfresh t
  exact ⟨fun p => pool_allocator.deallocate_false h.1 p 1, h.2.1⟩

/-! ## Claim C10: a positive reserved capacity keeps slots in bounds -/

theorem pool_allocator.initInv (ufl : Bool) {bs r : Nat} (hbs : 1 ≤ bs)
    (hr : 1 ≤ r) : (pool_allocator.init ufl bs r).Inv := by
  refine ⟨hbs, hr, fun _ => rfl, ?_, ?_, ?_, ?_⟩
  · intro b bs2 hbb
    simp [pool_allocator.init] at hbb
  · simp [pool_allocator.init]
  · intro p hp2
    simp [pool_allocator.init] at hp2
  · intro q hq
    simp [pool_allocator.init] at hq

theorem pool_allocator.Inv.allocate {s : pool_allocator} (h : s.Inv) (n : Nat) :
    ((s.allocate n).2).Inv := by
  obtain ⟨hbs, hcbs, hpe, hhead, hnd, hid, hfl⟩ := h
  by_cases hn : n ≠ 1
  · rw [pool_allocator.allocate_ne_one hn]
    exact ⟨hbs, hcbs, hpe, hhead, hnd, hid, hfl⟩
  · push_neg at hn
    subst hn
    rcases pool_allocator.allocate_one_cases s with
      ⟨f, rest, hu, hf, heq⟩ | ⟨hor, heq⟩
    · rw [heq]
      refine ⟨hbs, hcbs, hpe, hhead, hnd, hid, ?_⟩
      intro q hq
      refine hfl q ?_
      rw [hf]
      exact List.mem_cons_of_mem _ hq
    · rw [heq]
      by_cases hi : s.index = s.currBlockSize
      · cases hp : s.pool with
        | nil =>
            rw [pool_allocator.allocFromBlocks_first hi hp]
            refine ⟨hbs, hcbs, ?_, ?_, ?_, ?_, ?_⟩
            · intro hcontra
              simp at hcontra
            · intro b2 bs2 hbb
              simp only [List.cons.injEq] at hbb
              refine ⟨?_, hcbs⟩
              rw [← hbb.1]
            · simp
            · intro p hp2
              simp only [List.mem_singleton] at hp2
              subst hp2
              exact Nat.lt_succ_self _
            · intro q hq
              exfalso
              have hold := hfl q hq
              rw [hp] at hold
              simp [inBoundsB, findValue] at hold
        | cons b0 bs0 =>
            rw [pool_allocator.allocFromBlocks_next hi hp]
            have hndold : ((b0 :: bs0).map Prod.fst).Nodup := by
              rw [← hp]
              exact hnd
            have hfresh2 : s.nextBlockId ∉ (b0 :: bs0).map Prod.fst := by
              intro hm
              rw [List.mem_map] at hm
              obtain ⟨p2, hp2, hpe2⟩ := hm
              have := hid p2 (by rw [hp]; exact hp2)
              omega
            refine ⟨hbs, hbs, ?_, ?_, ?_, ?_, ?_⟩
            · intro hcontra
              simp at hcontra
            · intro b2 bs2 hbb
              simp only [List.cons.injEq] at hbb
              refine ⟨?_, hbs⟩
              rw [← hbb.1]
            · exact List.nodup_cons.mpr ⟨hfresh2, hndold⟩
            · intro p hp2
              rcases List.mem_cons.mp hp2 with rfl | hp3
              · exact Nat.lt_succ_self _
              · have hmem : p ∈ s.pool := by
                  rw [hp]
                  exact hp3
                exact Nat.lt_succ_of_lt (hid p hmem)
            · intro q hq
              have hold := hfl q hq
              rw [hp] at hold
              simp only [inBoundsB] at hold ⊢
              cases hfv : findValue (b0 :: bs0) q.1 with
              | none =>
                  rw [hfv] at hold
                  exact absurd hold (by simp)
              | some sz =>
                  rw [hfv] at hold
                  have hqmem : (q.1, sz) ∈ b0 :: bs0 := findValue_mem hfv
                  have hqin : q.1 ∈ (b0 :: bs0).map Prod.fst := by
                    rw [List.mem_map]
                    exact ⟨(q.1, sz), hqmem, rfl⟩
                  have hlt : q.1 < s.nextBlockId := by
                    rw [List.mem_map] at hqin
                    obtain ⟨p2, hp2, hpe2⟩ := hqin
                    have := hid p2 (by rw [hp]; exact hp2)
                    omega
                  have hne : ¬ ((s.nextBlockId, s.blockSize) : Nat × Nat).1 = q.1 := by
                    simp only []
                    omega
                  rw [findValue_cons_ne hne, hfv]
                  exact hold
      · rw [pool_allocator.allocFromBlocks_cursor hi]
        refine ⟨hbs, hcbs, ?_, ?_, hnd, hid, hfl⟩
        · intro hnil
          exact absurd (hpe hnil) hi
        · intro b2 bs2 hbb
          have hh := hhead b2 bs2 hbb
          refine ⟨hh.1, ?_⟩
          show s.index + 1 ≤ s.currBlockSize
          have h2 := hh.2
          omega

theorem pool_allocator.Inv.deallocate {s : pool_allocator} (h : s.Inv)
    (p : APtr) (n : Nat) (hin : n = 1 → inBoundsB s.pool p = true) :
    ((s.deallocate p n).Inv) := by
  obtain ⟨hbs, hcbs, hpe, hhead, hnd, hid, hfl⟩ := h
  by_cases hn : n ≠ 1
  · simp only [pool_allocator.deallocate, if_pos hn]
    exact ⟨hbs, hcbs, hpe, hhead, hnd, hid, hfl⟩
  · push_neg at hn
    subst hn
    cases hu : s.useFreeList with
    | false =>
        rw [pool_allocator.deallocate_false hu p 1]
        exact ⟨hbs, hcbs, hpe, hhead, hnd, hid, hfl⟩
    | true =>
        cases p with
        | heap h2 =>
            have hsame : s.deallocate (APtr.heap h2) 1 = s := by
              simp [pool_allocator.deallocate, hu]
            rw [hsame]
            exact ⟨hbs, hcbs, hpe, hhead, hnd, hid, hfl⟩
        | slot b i =>
            rw [pool_allocator.deallocate_slot hu b i]
            refine ⟨hbs, hcbs, hpe, hhead, hnd, hid, ?_⟩
            intro q hq
            rcases List.mem_cons.mp hq with rfl | hq2
            · exact hin rfl
            · exact hfl q hq2

theorem pool_allocator.Inv.allocate_inBounds {s : pool_allocator} (h : s.Inv) :
    inBoundsB ((s.allocate 1).2).pool (s.allocate 1).1 = true := by
  obtain ⟨hbs, hcbs, hpe, hhead, hnd, hid, hfl⟩ := h
  rcases pool_allocator.allocate_one_cases s with
    ⟨f, rest, hu, hf, heq⟩ | ⟨hor, heq⟩
  · rw [heq]
    refine hfl f ?_
    rw [hf]
    exact List.mem_cons_self _ _
  · rw [heq]
    by_cases hi : s.index = s.currBlockSize
    · cases hp : s.pool with
      | nil =>
          rw [pool_allocator.allocFromBlocks_first hi hp]
          show inBoundsB [(s.nextBlockId, s.currBlockSize)]
            (APtr.slot s.nextBlockId 0) = true
          simp only [inBoundsB]
          rw [show findValue [(s.nextBlockId, s.currBlockSize)] s.nextBlockId
            = some s.currBlockSize from by simp [findValue]]
          simp only [decide_eq_true_eq]
          omega
      | cons b0 bs0 =>
          rw [pool_allocator.allocFromBlocks_next hi hp]
          show inBoundsB ((s.nextBlockId, s.blockSize) :: b0 :: bs0)
            (APtr.slot s.nextBlockId 0) = true
          simp only [inBoundsB]
          rw [show findValue ((s.nextBlockId, s.blockSize) :: b0 :: bs0)
            s.nextBlockId = some s.blockSize from by simp [findValue]]
          simp only [decide_eq_true_eq]
          omega
    · rw [pool_allocator.allocFromBlocks_cursor hi]
      have hpne : s.pool ≠ [] := fun hnil => hi (hpe hnil)
      obtain ⟨b0, bs0, hp⟩ := List.exists_cons_of_ne_nil hpne
      have hh := hhead b0 bs0 hp
      rw [hp]
      simp only [headId, inBoundsB]
      rw [show findValue (b0 :: bs0) b0.1 = some b0.2 from by simp [findValue]]
      simp only [decide_eq_true_eq]
      omega

/-- C10: from any constructor call with reserved capacity at least 1 the
allocator satisfies an invariant preserved by every allocate call and by
every deallocate of an in-bounds pointer, under which allocate(1) always
returns a slot strictly inside the slot array of its block; with reserved
capacity 0 and an empty free list, the first allocate(1) creates a block
with zero slots and returns its slot 0, which is out of bounds. -/
theorem claim_C10 :
    (∀ (ufl : Bool) (bs r : Nat), 1 ≤ bs → 1 ≤ r →
      (pool_allocator.init ufl bs r).Inv) ∧
    (∀ (s : pool_allocator) (n : Nat), s.Inv → ((s.allocate n).2).Inv) ∧
    (∀ (s : pool_allocator) (p : APtr) (n : Nat), s.Inv →
      (n = 1 → inBoundsB s.pool p = true) → ((s.deallocate p n).Inv)) ∧
    (∀ s : pool_allocator, s.Inv →
      inBoundsB ((s.allocate 1).2).pool (s.allocate 1).1 = true) ∧
    (∀ (ufl : Bool) (bs : Nat),
      (pool_allocator.init ufl bs 0).allocate 1
        = (APtr.slot 0 0, { pool_allocator.init ufl bs 0 with
            pool := [(0, 0)], index := 1, nextBlockId := 1 }) ∧
      inBoundsB [(0, 0)] (APtr.slot 0 0) = false) := by
  refine ⟨?_, ?_, ?_, ?_, ?_⟩
  · intro ufl bs r hbs hr
    exact pool_allocator.initInv ufl hbs hr
  · intro s n h
    exact h.allocate n
  · intro s p n h hin
    exact h.deallocate p n hin
  · intro s h
    exact h.allocate_inBounds
  · intro ufl bs
    constructor
    · rw [pool_allocator.allocate_blocks (Or.inr rfl),
        pool_allocator.allocFromBlocks_first rfl rfl]
      rfl
    · rfl

/-! ## Witnesses at concrete inputs -/

/-- Witness for C1: capacity 2, inserting keys 1, 2, 3 evicts key 1. -/
theorem claim_C1_witness :
    (((lru_cache.init (K := Nat) (V := Nat) 2).run
        (((((1, 10) :: [(2, 20)]) ++ [(3, 30)] : List (Nat × Nat))).map fun p =>
          LOp.ins p.1 p.2 false)).peek 1).1 = none := by
  have h := claim_C1 (K := Nat) (V := Nat) 2 (by decide) (1, 10) [(2, 20)] (3, 30)
    (by decide) (by decide)
  exact h.1

/-- Witness for C2: capacity 1 and a single insert. -/
theorem claim_C2_witness :
    ((lru_cache.init (K := Nat) (V := Nat) 1).run [LOp.ins 0 0 false]).dict.length
      = ((lru_cache.init (K := Nat) (V := Nat) 1).run
          [LOp.ins 0 0 false]).cache.length := by
  have h := claim_C2 (K := Nat) (V := Nat) 1 (by decide) [LOp.ins 0 0 false]
  exact h.1

/-- Witness for C3: inserting on the present key 5 reports no insertion. -/
theorem claim_C3_witness :
    ((⟨[5], [(5, 7)], 2⟩ : lru_cache Nat Nat).insert 5 9 false).1.2 = false := by
  have h := claim_C3 (⟨[5], [(5, 7)], 2⟩ : lru_cache Nat Nat) (by decide) 5 7 9
    false (by decide)
  exact h.1

/-- Witness for C4: peek on key 5 leaves the state unchanged. -/
theorem claim_C4_witness :
    ((⟨[5], [(5, 7)], 2⟩ : lru_cache Nat Nat).peek 5).2
      = (⟨[5], [(5, 7)], 2⟩ : lru_cache Nat Nat) := by
  have h := claim_C4 (⟨[5], [(5, 7)], 2⟩ : lru_cache Nat Nat) (by decide) 5
  exact h.1
